import Mathlib

/-!
Verification development for the Coramin multitree solver core
(`coramin/algorithms/multitree/multitree.py`) and the alphaBB
convex-underestimator builder (`coramin/relaxations/alphabb.py`).

The Python code works with IEEE floats; numeric literals such as `1e-6`
are modelled as the exact rationals they denote, and float values are
modelled by the extended rationals `XR` below (finite rational, the two
infinities, and a `nan` element mirroring the propagation and comparison
behaviour of float NaN).  Fallible Python code (assertion failures,
`max()` over an empty list, arithmetic on `None`) is modelled with
`Option`, `none` standing for an aborted call.
-/

/-- Extended rationals modelling Python float values: finite values, the
infinities produced by `math.inf` sentinels, and `nan` for the results of
undefined operations such as `inf - inf`. -/
inductive XR where
  | nan : XR
  | ninf : XR
  | pinf : XR
  | fin (q : ℚ) : XR
deriving DecidableEq, Repr

namespace XR

/-- Python `<` on floats: any comparison involving NaN is false. -/
def lt : XR → XR → Bool
  | nan, _ => false
  | _, nan => false
  | ninf, ninf => false
  | ninf, pinf => true
  | ninf, fin _ => true
  | pinf, _ => false
  | fin _, ninf => false
  | fin _, pinf => true
  | fin a, fin b => a < b

/-- Python `<=` on floats: any comparison involving NaN is false. -/
def le : XR → XR → Bool
  | nan, _ => false
  | _, nan => false
  | ninf, _ => true
  | pinf, pinf => true
  | pinf, ninf => false
  | pinf, fin _ => false
  | fin _, pinf => true
  | fin _, ninf => false
  | fin a, fin b => a ≤ b

/-- Python float subtraction, with `inf - inf = nan`. -/
def sub : XR → XR → XR
  | nan, _ => nan
  | _, nan => nan
  | pinf, pinf => nan
  | pinf, ninf => pinf
  | pinf, fin _ => pinf
  | ninf, ninf => nan
  | ninf, pinf => ninf
  | ninf, fin _ => ninf
  | fin _, pinf => ninf
  | fin _, ninf => pinf
  | fin a, fin b => fin (a - b)

/-- Python float addition, with `inf + (-inf) = nan`. -/
def add : XR → XR → XR
  | nan, _ => nan
  | _, nan => nan
  | pinf, ninf => nan
  | pinf, pinf => pinf
  | pinf, fin _ => pinf
  | ninf, pinf => nan
  | ninf, ninf => ninf
  | ninf, fin _ => ninf
  | fin _, pinf => pinf
  | fin _, ninf => ninf
  | fin a, fin b => fin (a + b)

/-- Python float multiplication, with `0 * inf = nan`. -/
def mul : XR → XR → XR
  | nan, _ => nan
  | _, nan => nan
  | pinf, pinf => pinf
  | pinf, ninf => ninf
  | pinf, fin b => if 0 < b then pinf else if b < 0 then ninf else nan
  | ninf, pinf => ninf
  | ninf, ninf => pinf
  | ninf, fin b => if 0 < b then ninf else if b < 0 then pinf else nan
  | fin a, pinf => if 0 < a then pinf else if a < 0 then ninf else nan
  | fin a, ninf => if 0 < a then ninf else if a < 0 then pinf else nan
  | fin a, fin b => fin (a * b)

/-- Python float division.  Division by zero raises in Python and is
unreachable in the guarded uses below; it is mapped to `nan` here. -/
def div : XR → XR → XR
  | nan, _ => nan
  | _, nan => nan
  | pinf, pinf => nan
  | pinf, ninf => nan
  | ninf, pinf => nan
  | ninf, ninf => nan
  | pinf, fin b => if 0 < b then pinf else if b < 0 then ninf else nan
  | ninf, fin b => if 0 < b then ninf else if b < 0 then pinf else nan
  | fin _, pinf => fin 0
  | fin _, ninf => fin 0
  | fin a, fin b => if b = 0 then nan else fin (a / b)

/-- Python `abs` on floats. -/
def abs : XR → XR
  | nan => nan
  | ninf => pinf
  | pinf => pinf
  | fin a => fin |a|

/-- Python `math.isinf`. -/
def isinf : XR → Bool
  | pinf => true
  | ninf => true
  | _ => false

/-- The Python builtin `max(a, b)`: keeps `a` unless `b` compares
strictly greater, which also matches its NaN behaviour. -/
def pymax (a b : XR) : XR := if lt a b then b else a

end XR

/-- Objective sense (`pe.minimize` / `pe.maximize`). -/
inductive Sense where
  | minimize : Sense
  | maximize : Sense
deriving DecidableEq, Repr

/-- The appsi `TerminationCondition` values used by the multitree code. -/
inductive TermCond where
  | optimal : TermCond
  | maxTimeLimit : TermCond
  | maxIterations : TermCond
  | objectiveLimit : TermCond
  | interrupted : TermCond
  | infeasible : TermCond
  | unbounded : TermCond
  | error : TermCond
  | unknown : TermCond
deriving DecidableEq, Repr

/-- The bound-tracking part of the `MultiTree` solver state: objective
sense, `_best_feasible_objective`, `_best_objective_bound`, and the
incumbent (modelled as the list of original-model variable values stored
by `_update_primal_bound`). -/
structure MTState where
  sense : Sense
  bestFeasibleObjective : Option ℚ
  bestObjectiveBound : Option ℚ
  incumbent : Option (List (Option ℚ))
deriving DecidableEq, Repr

/-- The `MultiTreeConfig` fields consulted by the functions modelled
here.  `time_limit`, `abs_gap`, `mip_gap` and `feasibility_tolerance`
are floats in the source, modelled as rationals. -/
structure Config where
  timeLimit : ℚ
  maxIter : ℕ
  absGap : ℚ
  mipGap : ℚ
  feasibilityTolerance : ℚ
deriving DecidableEq, Repr

/-- `MultiTree._get_primal_bound`: the best feasible objective if one is
recorded, else the sense-aware infinite sentinel. -/
def getPrimalBound (s : MTState) : XR :=
  match s.bestFeasibleObjective with
  | none => if s.sense = Sense.minimize then XR.pinf else XR.ninf
  | some q => XR.fin q

/-- `MultiTree._get_dual_bound`: the best objective bound if one is
recorded, else the sense-aware infinite sentinel. -/
def getDualBound (s : MTState) : XR :=
  match s.bestObjectiveBound with
  | none => if s.sense = Sense.minimize then XR.ninf else XR.pinf
  | some q => XR.fin q

/-- `MultiTree._get_abs_and_rel_gap`. -/
def getAbsAndRelGap (s : MTState) : XR × XR :=
  let primalBound := getPrimalBound s
  let dualBound := getDualBound s
  let absGap := XR.abs (XR.sub primalBound dualBound)
  let relGap :=
    if absGap = XR.fin 0 then XR.fin 0
    else if primalBound = XR.fin 0 then XR.pinf
    else if absGap.isinf then XR.pinf
    else XR.div absGap (XR.abs primalBound)
  (absGap, relGap)

/-- The soundness assertion evaluated inside `_should_terminate`:
for minimize, `primal_bound >= dual_bound - 1e-6*max(|primal|,|dual|) - 1e-6`,
mirrored for maximize. -/
def soundnessCheck (s : MTState) : Bool :=
  let p := getPrimalBound s
  let d := getDualBound s
  let slack :=
    XR.mul (XR.fin (1 / 1000000)) (XR.pymax (XR.abs p) (XR.abs d))
  if s.sense = Sense.minimize then
    XR.le (XR.sub (XR.sub d slack) (XR.fin (1 / 1000000))) p
  else
    XR.le p (XR.add (XR.add d slack) (XR.fin (1 / 1000000)))

/-- `MultiTree._should_terminate`.  The result `none` models a failure of
one of the two `assert` statements (an `AssertionError` aborting the
run); `some (flag, cond)` models the returned pair. -/
def shouldTerminate (cfg : Config) (elapsed : ℚ) (iter : ℕ)
    (stop : Option TermCond) (s : MTState) : Option (Bool × TermCond) :=
  if cfg.timeLimit ≤ elapsed then some (true, TermCond.maxTimeLimit)
  else if cfg.maxIter ≤ iter then some (true, TermCond.maxIterations)
  else
    match stop with
    | some t => some (true, t)
    | none =>
      if soundnessCheck s then
        let g := getAbsAndRelGap s
        if XR.le g.1 (XR.fin cfg.absGap) then some (true, TermCond.optimal)
        else if XR.le g.2 (XR.fin cfg.mipGap) then some (true, TermCond.optimal)
        else some (false, TermCond.unknown)
      else none

/-- The result fields of an appsi `Results` object consulted by the
bound-update code. -/
structure Res where
  bestObjectiveBound : Option ℚ
  bestFeasibleObjective : Option ℚ
deriving DecidableEq, Repr

/-- One relaxation object as seen by `_get_constr_violation`: the values
of its right-hand-side variables (`None` possible) and the deviation
that `get_deviation()` would report. -/
structure RelObj where
  rhsVals : List (Option ℚ)
  deviation : ℚ
deriving DecidableEq, Repr

/-- The inner loop of `_get_constr_violation`: walk the right-hand-side
variable values of one relaxation object, looking for an unvalued
(`None`) variable. -/
def hasNoneVal : List (Option ℚ) → Bool
  | [] => false
  | none :: _ => true
  | some _ :: rest => hasNoneVal rest

/-- The `viol_list` built by `_get_constr_violation`: one deviation per
relaxation object, except that the first object with an unvalued
right-hand-side variable contributes `math.inf` and stops the loop. -/
def violList : List RelObj → List XR
  | [] => []
  | b :: bs =>
    if hasNoneVal b.rhsVals then [XR.pinf]
    else XR.fin b.deviation :: violList bs

/-- The Python builtin `max` over a list: errors (`none`) on an empty
list, otherwise folds `pymax` from the first element. -/
def pymaxList : List XR → Option XR
  | [] => none
  | x :: xs => some (xs.foldl XR.pymax x)

/-- `MultiTree._get_constr_violation`; `none` models the `ValueError`
raised by `max` on an empty list. -/
def getConstrViolation (objs : List RelObj) : Option XR :=
  pymaxList (violList objs)

/-- Python `math.isclose(a, b, rel_tol, abs_tol)`:
`abs(a-b) <= max(rel_tol * max(abs(a), abs(b)), abs_tol)`. -/
def pyIsClose (relTol absTol a b : ℚ) : Bool :=
  |a - b| ≤ max (relTol * max |a| |b|) absTol

/-- Python `round` to an integer: round half to even. -/
def roundHalfEven (q : ℚ) : ℤ :=
  let f := ⌊q⌋
  let r := q - (f : ℚ)
  if r < 1 / 2 then f
  else if 1 / 2 < r then f + 1
  else if f % 2 = 0 then f else f + 1

/-- The dual-bound half of `MultiTree._update_dual_bound` (lines
301-314): accept the candidate `res.best_objective_bound` only when no
bound is tracked yet or the candidate strictly improves it in the
objective sense. -/
def dualPart (s : MTState) (res : Res) : MTState :=
  match res.bestObjectiveBound with
  | none => s
  | some c =>
    if s.sense = Sense.minimize then
      match s.bestObjectiveBound with
      | none => { s with bestObjectiveBound := some c }
      | some cur =>
        if cur < c then { s with bestObjectiveBound := some c } else s
    else
      match s.bestObjectiveBound with
      | none => { s with bestObjectiveBound := some c }
      | some cur =>
        if c < cur then { s with bestObjectiveBound := some c } else s

/-- The discrete-variable loop of `_update_dual_bound`: walk the values
of the discrete variables, stopping at the first one not close to its
rounded value.  A `None` value reached by the loop is a `TypeError`
(`none` result).  `math.isclose` is called with its default tolerances
(`rel_tol=1e-9`, `abs_tol=0.0`). -/
def checkDiscrete : List (Option ℚ) → Option Bool
  | [] => some true
  | none :: _ => none
  | some q :: rest =>
    if pyIsClose (1 / 1000000000) 0 q ((roundHalfEven q : ℤ) : ℚ)
    then checkDiscrete rest
    else some false

/-- `MultiTree._update_primal_bound`: replace the tracked best feasible
objective and incumbent only when the candidate feasible objective
strictly improves in the objective sense.  `incumbentVals` stands for
the original-model variable values read through `_nlp_to_orig_map`. -/
def updatePrimalBound (s : MTState) (res : Res)
    (incumbentVals : List (Option ℚ)) : MTState :=
  let shouldUpdate :=
    match res.bestFeasibleObjective with
    | none => false
    | some c =>
      match s.bestFeasibleObjective with
      | none => true
      | some cur => if s.sense = Sense.minimize then c < cur else cur < c
  if shouldUpdate then
    { s with bestFeasibleObjective := res.bestFeasibleObjective,
             incumbent := some incumbentVals }
  else s

/-- `MultiTree._update_dual_bound` in full: the dual-bound half followed
by the validation (constraint violation within `feasibility_tolerance`,
all discrete values close to integers) guarding the primal-bound
update.  `discreteVals` are the relaxation values of `_discrete_vars`;
`incumbentVals` the values the incumbent would record.  `none` models a
Python runtime error (empty `max`, or `round`/`isclose` on `None`). -/
def updateDualBound (feasTol : ℚ) (s : MTState) (res : Res)
    (objs : List RelObj) (discreteVals : List (Option ℚ))
    (incumbentVals : List (Option ℚ)) : Option MTState :=
  let s1 := dualPart s res
  match res.bestFeasibleObjective with
  | none => some s1
  | some _ =>
    match getConstrViolation objs with
    | none => none
    | some maxViol =>
      let allConsSatisfied := ¬ XR.lt (XR.fin feasTol) maxViol
      if allConsSatisfied then
        match checkDiscrete discreteVals with
        | none => none
        | some allClose =>
          if allClose then some (updatePrimalBound s1 res incumbentVals)
          else some s1
      else some s1

/-- One bound-updating event of a run: either a call to
`_update_dual_bound` (from `_solve_relaxation`) or a direct call to
`_update_primal_bound` (from `_solve_nlp_with_fixed_vars`). -/
inductive Ev where
  | dual (res : Res) (objs : List RelObj)
      (discreteVals incumbentVals : List (Option ℚ)) : Ev
  | primal (res : Res) (incumbentVals : List (Option ℚ)) : Ev
deriving Repr

/-- Apply one bound-updating event to the tracker state. -/
def applyEv (feasTol : ℚ) (s : MTState) : Ev → Option MTState
  | Ev.dual res objs dv iv => updateDualBound feasTol s res objs dv iv
  | Ev.primal res iv => some (updatePrimalBound s res iv)

/-- Run a list of bound-updating events from a given tracker state. -/
def runEvents (feasTol : ℚ) (s : MTState) : List Ev → Option MTState
  | [] => some s
  | e :: es =>
    match applyEv feasTol s e with
    | none => none
    | some s2 => runEvents feasTol s2 es

/-- The tracker state at the start of a run (`_re_init`): no feasible
objective, no objective bound, no incumbent. -/
def initState (sense : Sense) : MTState :=
  { sense := sense, bestFeasibleObjective := none,
    bestObjectiveBound := none, incumbent := none }

/-- An event carries only valid bounds with respect to a reference
objective value `z`: every dual-bound candidate is on the dual side of
`z` and every feasible-objective candidate on the primal side, in the
objective sense. -/
def validEv (sense : Sense) (z : ℚ) : Ev → Prop
  | Ev.dual res _ _ _ =>
      (∀ b, res.bestObjectiveBound = some b →
        (if sense = Sense.minimize then b ≤ z else z ≤ b)) ∧
      (∀ f, res.bestFeasibleObjective = some f →
        (if sense = Sense.minimize then z ≤ f else f ≤ z))
  | Ev.primal res _ =>
      ∀ f, res.bestFeasibleObjective = some f →
        (if sense = Sense.minimize then z ≤ f else f ≤ z)

/-- The tracked bounds bracket the reference value `z`. -/
def bracketed (z : ℚ) (s : MTState) : Prop :=
  (∀ b, s.bestObjectiveBound = some b →
    (if s.sense = Sense.minimize then b ≤ z else z ≤ b)) ∧
  (∀ f, s.bestFeasibleObjective = some f →
    (if s.sense = Sense.minimize then z ≤ f else f ≤ z))

/-- The termination decision exactly as the specification words it:
first match among time limit, iteration limit, recorded stop flag,
absolute gap closed, relative gap closed; otherwise continue with
reason unknown. -/
def specDecision (cfg : Config) (elapsed : ℚ) (iter : ℕ)
    (stop : Option TermCond) (s : MTState) : Bool × TermCond :=
  if cfg.timeLimit ≤ elapsed then (true, TermCond.maxTimeLimit)
  else if cfg.maxIter ≤ iter then (true, TermCond.maxIterations)
  else
    match stop with
    | some t => (true, t)
    | none =>
      let g := getAbsAndRelGap s
      if XR.le g.1 (XR.fin cfg.absGap) then (true, TermCond.optimal)
      else if XR.le g.2 (XR.fin cfg.mipGap) then (true, TermCond.optimal)
      else (false, TermCond.unknown)

/-- The absolute gap exactly as the specification words it. -/
def specAbsGap (s : MTState) : XR :=
  XR.abs (XR.sub (getPrimalBound s) (getDualBound s))

/-- The relative gap exactly as the specification words it: `0` if the
absolute gap is `0`, `+inf` if the primal bound is `0` or the absolute
gap is infinite, else absolute gap over `|primal|`. -/
def specRelGap (s : MTState) : XR :=
  if specAbsGap s = XR.fin 0 then XR.fin 0
  else if getPrimalBound s = XR.fin 0 then XR.pinf
  else if (specAbsGap s).isinf then XR.pinf
  else XR.div (specAbsGap s) (XR.abs (getPrimalBound s))

/-- The default `MultiTreeConfig` values relevant here: `time_limit=600`,
`max_iter=100`, `abs_gap=1e-4`, `mip_gap=0.001`,
`feasibility_tolerance=1e-6`. -/
def defaultConfig : Config :=
  { timeLimit := 600, maxIter := 100, absGap := 1 / 10000,
    mipGap := 1 / 1000, feasibilityTolerance := 1 / 1000000 }

theorem dualPart_sense (s : MTState) (res : Res) :
    (dualPart s res).sense = s.sense := by
  unfold dualPart
  repeat' split
  all_goals rfl

theorem dualPart_feas (s : MTState) (res : Res) :
    (dualPart s res).bestFeasibleObjective = s.bestFeasibleObjective := by
  unfold dualPart
  repeat' split
  all_goals rfl

theorem dualPart_incumbent (s : MTState) (res : Res) :
    (dualPart s res).incumbent = s.incumbent := by
  unfold dualPart
  repeat' split
  all_goals rfl

theorem dualPart_bound_cases (s : MTState) (res : Res) :
    (dualPart s res).bestObjectiveBound = s.bestObjectiveBound ∨
    (dualPart s res).bestObjectiveBound = res.bestObjectiveBound := by
  unfold dualPart
  repeat' split
  all_goals simp_all

theorem updatePrimalBound_sense (s : MTState) (res : Res)
    (iv : List (Option ℚ)) : (updatePrimalBound s res iv).sense = s.sense := by
  unfold updatePrimalBound
  dsimp only
  repeat' split
  all_goals simp_all

theorem updatePrimalBound_bound (s : MTState) (res : Res)
    (iv : List (Option ℚ)) :
    (updatePrimalBound s res iv).bestObjectiveBound = s.bestObjectiveBound := by
  unfold updatePrimalBound
  dsimp only
  repeat' split
  all_goals simp_all

theorem updatePrimalBound_feas_cases (s : MTState) (res : Res)
    (iv : List (Option ℚ)) :
    (updatePrimalBound s res iv).bestFeasibleObjective = s.bestFeasibleObjective ∨
    (updatePrimalBound s res iv).bestFeasibleObjective = res.bestFeasibleObjective := by
  unfold updatePrimalBound
  dsimp only
  repeat' split
  all_goals simp_all

theorem updateDualBound_some_cases (feasTol : ℚ) (s s' : MTState) (res : Res)
    (objs : List RelObj) (dv iv : List (Option ℚ))
    (h : updateDualBound feasTol s res objs dv iv = some s') :
    s' = dualPart s res ∨ s' = updatePrimalBound (dualPart s res) res iv := by
  unfold updateDualBound at h
  cases hf : res.bestFeasibleObjective with
  | none =>
    rw [hf] at h
    exact Or.inl (Option.some.inj h).symm
  | some c =>
    rw [hf] at h
    cases hv : getConstrViolation objs with
    | none => rw [hv] at h; exact absurd h (by simp)
    | some mv =>
      rw [hv] at h
      dsimp only at h
      split at h
      · cases hd : checkDiscrete dv with
        | none => rw [hd] at h; exact absurd h (by simp)
        | some ac =>
          rw [hd] at h
          dsimp only at h
          split at h
          · exact Or.inr (Option.some.inj h).symm
          · exact Or.inl (Option.some.inj h).symm
      · exact Or.inl (Option.some.inj h).symm

theorem dualPart_bracketed (z : ℚ) (s : MTState) (res : Res)
    (hs : bracketed z s)
    (hr : ∀ b, res.bestObjectiveBound = some b →
      (if s.sense = Sense.minimize then b ≤ z else z ≤ b)) :
    bracketed z (dualPart s res) := by
  obtain ⟨hb, hf⟩ := hs
  constructor
  · intro b hbnd
    rw [dualPart_sense]
    rcases dualPart_bound_cases s res with hc | hc
    · exact hb b (hc ▸ hbnd)
    · exact hr b (hc ▸ hbnd)
  · intro f hfe
    rw [dualPart_sense]
    rw [dualPart_feas] at hfe
    exact hf f hfe

theorem updatePrimalBound_bracketed (z : ℚ) (s : MTState) (res : Res)
    (iv : List (Option ℚ)) (hs : bracketed z s)
    (hr : ∀ f, res.bestFeasibleObjective = some f →
      (if s.sense = Sense.minimize then z ≤ f else f ≤ z)) :
    bracketed z (updatePrimalBound s res iv) := by
  obtain ⟨hb, hf⟩ := hs
  constructor
  · intro b hbnd
    rw [updatePrimalBound_sense]
    rw [updatePrimalBound_bound] at hbnd
    exact hb b hbnd
  · intro f hfe
    rw [updatePrimalBound_sense]
    rcases updatePrimalBound_feas_cases s res iv with hc | hc
    · exact hf f (hc ▸ hfe)
    · exact hr f (hc ▸ hfe)

theorem applyEv_bracketed (z feasTol : ℚ) (s s' : MTState) (e : Ev)
    (hs : bracketed z s) (hv : validEv s.sense z e)
    (h : applyEv feasTol s e = some s') :
    bracketed z s' ∧ s'.sense = s.sense := by
  cases e with
  | dual res objs dv iv =>
    obtain ⟨hvb, hvf⟩ := hv
    rcases updateDualBound_some_cases feasTol s s' res objs dv iv h with hc | hc
    · subst hc
      exact ⟨dualPart_bracketed z s res hs hvb, dualPart_sense s res⟩
    · subst hc
      refine ⟨updatePrimalBound_bracketed z _ res iv
        (dualPart_bracketed z s res hs hvb) ?_, ?_⟩
      · rw [dualPart_sense]; exact hvf
      · rw [updatePrimalBound_sense, dualPart_sense]
  | primal res iv =>
    simp only [applyEv, Option.some.injEq] at h
    subst h
    exact ⟨updatePrimalBound_bracketed z s res iv hs hv,
      updatePrimalBound_sense s res iv⟩

theorem runEvents_bracketed (z feasTol : ℚ) (sense : Sense) :
    ∀ (evs : List Ev) (s s' : MTState), bracketed z s → s.sense = sense →
    (∀ e ∈ evs, validEv sense z e) →
    runEvents feasTol s evs = some s' →
    bracketed z s' ∧ s'.sense = sense := by
  intro evs
  induction evs with
  | nil =>
    intro s s' hs hsen _ h
    simp only [runEvents, Option.some.injEq] at h
    subst h
    exact ⟨hs, hsen⟩
  | cons e es ih =>
    intro s s' hs hsen hv h
    simp only [runEvents] at h
    cases ha : applyEv feasTol s e with
    | none => rw [ha] at h; exact absurd h (by simp)
    | some s2 =>
      rw [ha] at h
      have h2 := applyEv_bracketed z feasTol s s2 e hs
        (hsen ▸ hv e (List.mem_cons_self e es)) ha
      exact ih s2 s' h2.1 (h2.2.trans hsen)
        (fun x hx => hv x (List.mem_cons_of_mem e hx)) h

theorem XR.pymax_fin_fin (a b : ℚ) :
    XR.pymax (XR.fin a) (XR.fin b) = XR.fin (max a b) := by
  unfold XR.pymax XR.lt
  rcases lt_or_ge a b with h | h
  · simp [h, max_eq_right h.le]
  · simp [not_lt.mpr h, max_eq_left h]

theorem XR.le_fin_fin (a b : ℚ) :
    XR.le (XR.fin a) (XR.fin b) = decide (a ≤ b) := rfl

theorem XR.sub_fin_fin (a b : ℚ) :
    XR.sub (XR.fin a) (XR.fin b) = XR.fin (a - b) := rfl

theorem XR.add_fin_fin (a b : ℚ) :
    XR.add (XR.fin a) (XR.fin b) = XR.fin (a + b) := rfl

theorem XR.mul_fin_fin (a b : ℚ) :
    XR.mul (XR.fin a) (XR.fin b) = XR.fin (a * b) := rfl

theorem XR.abs_fin (a : ℚ) : XR.abs (XR.fin a) = XR.fin |a| := rfl

theorem bracketed_soundnessCheck (z : ℚ) (s : MTState)
    (h : bracketed z s) : soundnessCheck s = true := by
  obtain ⟨hb, hf⟩ := h
  obtain ⟨sen, fo, bo, inc⟩ := s
  cases sen <;> cases fo <;> cases bo
  · simp [soundnessCheck, getPrimalBound, getDualBound, XR.abs, XR.pymax,
      XR.lt, XR.mul, XR.sub, XR.add, XR.le]
  · simp [soundnessCheck, getPrimalBound, getDualBound, XR.abs, XR.pymax,
      XR.lt, XR.mul, XR.sub, XR.add, XR.le]
  · simp [soundnessCheck, getPrimalBound, getDualBound, XR.abs, XR.pymax,
      XR.lt, XR.mul, XR.sub, XR.add, XR.le]
  · -- minimize, feasible f, bound b
    rename_i f b
    have h1 : b ≤ z := by simpa using hb b rfl
    have h2 : z ≤ f := by simpa using hf f rfl
    simp only [soundnessCheck, getPrimalBound, getDualBound, XR.abs_fin,
      XR.pymax_fin_fin, XR.mul_fin_fin, XR.sub_fin_fin, XR.add_fin_fin,
      XR.le_fin_fin]
    norm_num
    nlinarith [le_max_left |f| |b|, abs_nonneg f, abs_nonneg b]
  · simp [soundnessCheck, getPrimalBound, getDualBound, XR.abs, XR.pymax,
      XR.lt, XR.mul, XR.sub, XR.add, XR.le]
  · simp [soundnessCheck, getPrimalBound, getDualBound, XR.abs, XR.pymax,
      XR.lt, XR.mul, XR.sub, XR.add, XR.le]
  · simp [soundnessCheck, getPrimalBound, getDualBound, XR.abs, XR.pymax,
      XR.lt, XR.mul, XR.sub, XR.add, XR.le]
  · -- maximize, feasible f, bound b
    rename_i f b
    have h1 : z ≤ b := by simpa using hb b rfl
    have h2 : f ≤ z := by simpa using hf f rfl
    simp only [soundnessCheck, getPrimalBound, getDualBound, XR.abs_fin,
      XR.pymax_fin_fin, XR.mul_fin_fin, XR.sub_fin_fin, XR.add_fin_fin,
      XR.le_fin_fin]
    norm_num
    rw [if_neg (by decide : ¬ (Sense.maximize = Sense.minimize))]
    nlinarith [le_max_left |f| |b|, abs_nonneg f, abs_nonneg b]

theorem shouldTerminate_none_iff (cfg : Config) (elapsed : ℚ) (iter : ℕ)
    (stop : Option TermCond) (s : MTState) :
    shouldTerminate cfg elapsed iter stop s = none ↔
      (elapsed < cfg.timeLimit ∧ iter < cfg.maxIter ∧ stop = none ∧
        soundnessCheck s = false) := by
  unfold shouldTerminate
  rcases le_or_lt cfg.timeLimit elapsed with h1 | h1
  · simp [if_pos h1, not_lt.mpr h1]
  · rw [if_neg (not_le.mpr h1)]
    rcases le_or_lt cfg.maxIter iter with h2 | h2
    · simp [if_pos h2, not_lt.mpr h2, h1]
    · rw [if_neg (not_le.mpr h2)]
      cases stop with
      | some t => simp [h1, h2]
      | none =>
        cases hsc : soundnessCheck s with
        | false => simp [hsc, h1, h2]
        | true =>
          simp only [hsc, h1, h2]
          simp
          split
          · simp
          · split <;> simp

theorem initState_bracketed (sense : Sense) (z : ℚ) :
    bracketed z (initState sense) := by
  constructor <;> intro x hx <;> simp [initState] at hx

/-- C1.  Amended claim: at every termination evaluation the bound
soundness inequality (for minimize,
`primal >= dual - 1e-6*max(|primal|,|dual|) - 1e-6`; mirrored for
maximize) is checked, and its violation is a fatal assertion failure
(result `none`), the only way a termination evaluation can abort.  The
assertion never fires on any run whose dual-bound updates and validated
primal-bound updates carry candidates bracketing a common reference
objective value `z` (each dual-bound candidate on the dual side of `z`,
each feasible-objective candidate on the primal side). -/
theorem C1_soundness_invariant_checked_and_holds :
    (∀ (cfg : Config) (elapsed : ℚ) (iter : ℕ) (stop : Option TermCond)
        (s : MTState),
      shouldTerminate cfg elapsed iter stop s = none ↔
        (elapsed < cfg.timeLimit ∧ iter < cfg.maxIter ∧ stop = none ∧
          soundnessCheck s = false)) ∧
    (∀ (sense : Sense) (z feasTol : ℚ) (evs : List Ev) (s : MTState),
      (∀ e ∈ evs, validEv sense z e) →
      runEvents feasTol (initState sense) evs = some s →
      ∀ (cfg : Config) (elapsed : ℚ) (iter : ℕ) (stop : Option TermCond),
        shouldTerminate cfg elapsed iter stop s ≠ none) := by
  refine ⟨shouldTerminate_none_iff, ?_⟩
  intro sense z feasTol evs s hv hrun cfg elapsed iter stop hnone
  have hbr := runEvents_bracketed z feasTol sense evs (initState sense) s
    (initState_bracketed sense z) rfl hv hrun
  have hsc := bracketed_soundnessCheck z s hbr.1
  have := (shouldTerminate_none_iff cfg elapsed iter stop s).mp hnone
  rw [hsc] at this
  exact absurd this.2.2.2 (by simp)

/-- C1 witness: the amended theorem applied to the empty run in
minimize sense, with the default configuration. -/
theorem C1_soundness_invariant_checked_and_holds_witness :
    shouldTerminate defaultConfig 0 0 none (initState Sense.minimize) ≠
      none :=
  C1_soundness_invariant_checked_and_holds.2 Sense.minimize 0 (1 / 1000000)
    [] (initState Sense.minimize) (by intro e he; cases he) rfl
    defaultConfig 0 0 none

/-- C1 counterexample: a run in which the primal bound comes only from a
validated primal-bound update (`_update_dual_bound` with a feasible
candidate 5 passing the violation and integrality checks) and the dual
bound only from a dual-bound update (candidate 100, accepted because it
improves on no tracked bound), after which the termination evaluation
fails the soundness assertion (`5 >= 100 - ...` is false) and aborts:
the claim that the assertion never fires for such runs is false. -/
theorem C1_soundness_invariant_counterexample :
    runEvents (1 / 1000000) (initState Sense.minimize)
        [Ev.dual ⟨none, some 5⟩ [⟨[some 1], 0⟩] [] [some 1],
         Ev.dual ⟨some 100, none⟩ [] [] []] =
      some ⟨Sense.minimize, some 5, some 100, some [some 1]⟩ ∧
    shouldTerminate defaultConfig 0 0 none
        ⟨Sense.minimize, some 5, some 100, some [some 1]⟩ = none := by
  constructor
  · norm_num [runEvents, applyEv, updateDualBound, dualPart,
      getConstrViolation, violList, hasNoneVal, pymaxList, checkDiscrete,
      updatePrimalBound, initState, XR.lt, XR.pymax]
  · norm_num [shouldTerminate, defaultConfig, soundnessCheck, getPrimalBound,
      getDualBound, XR.abs, XR.pymax, XR.lt, XR.mul, XR.sub, XR.le]

/-- C2.  Whenever the soundness assertion passes, `_should_terminate`
returns exactly the first-match decision in the specified order: time
limit, iteration limit, recorded stop flag, absolute gap closed,
relative gap closed, else continue with reason unknown. -/
theorem C2_termination_decision_order (cfg : Config) (elapsed : ℚ)
    (iter : ℕ) (stop : Option TermCond) (s : MTState)
    (hsc : soundnessCheck s = true) :
    shouldTerminate cfg elapsed iter stop s =
      some (specDecision cfg elapsed iter stop s) := by
  unfold shouldTerminate specDecision
  rcases le_or_lt cfg.timeLimit elapsed with h1 | h1
  · rw [if_pos h1, if_pos h1]
  · rw [if_neg (not_le.mpr h1), if_neg (not_le.mpr h1)]
    rcases le_or_lt cfg.maxIter iter with h2 | h2
    · rw [if_pos h2, if_pos h2]
    · rw [if_neg (not_le.mpr h2), if_neg (not_le.mpr h2)]
      cases stop with
      | some t => rfl
      | none =>
        rw [if_pos hsc]
        by_cases hA : XR.le (getAbsAndRelGap s).1 (XR.fin cfg.absGap) = true
        · simp [hA]
        · by_cases hB : XR.le (getAbsAndRelGap s).2 (XR.fin cfg.mipGap) = true
          · simp [hA, hB]
          · simp [hA, hB]

/-- C2 witness: the decision-order theorem applied at the initial
tracker state with the default configuration. -/
theorem C2_termination_decision_order_witness :
    shouldTerminate defaultConfig 0 0 none (initState Sense.minimize) =
      some (specDecision defaultConfig 0 0 none
        (initState Sense.minimize)) :=
  C2_termination_decision_order defaultConfig 0 0 none
    (initState Sense.minimize)
    (by norm_num [soundnessCheck, getPrimalBound, getDualBound, initState,
      XR.abs, XR.pymax, XR.lt, XR.mul, XR.sub, XR.le])

/-- C3.  The gap computation returns absolute gap `|primal - dual|` and
relative gap `0` when the absolute gap is `0`, `+inf` when the primal
bound is `0` or the absolute gap is infinite, else absolute gap over
`|primal|`; in particular `gap(5, 5) = (0, 0)`, `gap(0, 3) = (3, +inf)`
and `gap(+inf, -inf) = (+inf, +inf)` for the minimize-sense
no-incumbent/no-bound sentinels. -/
theorem C3_gap_computation :
    (∀ s : MTState, getAbsAndRelGap s = (specAbsGap s, specRelGap s)) ∧
    getAbsAndRelGap ⟨Sense.minimize, some 5, some 5, none⟩ =
      (XR.fin 0, XR.fin 0) ∧
    getAbsAndRelGap ⟨Sense.minimize, some 0, some 3, none⟩ =
      (XR.fin 3, XR.pinf) ∧
    getAbsAndRelGap ⟨Sense.minimize, none, none, none⟩ =
      (XR.pinf, XR.pinf) := by
  refine ⟨fun s => rfl, ?_, ?_, ?_⟩
  · norm_num [getAbsAndRelGap, getPrimalBound, getDualBound, XR.abs, XR.sub,
      XR.isinf, XR.div]
  · norm_num [getAbsAndRelGap, getPrimalBound, getDualBound, XR.abs, XR.sub,
      XR.isinf, XR.div]
  · norm_num [getAbsAndRelGap, getPrimalBound, getDualBound, XR.abs, XR.sub,
      XR.isinf, XR.div]
    intro h
    exact XR.noConfusion h

/-- The dual-bound acceptance rule exactly as the specification words
it: accept the candidate only when no bound is tracked yet or it is
strictly better in the objective sense. -/
def specDualUpdate (sense : Sense) (cur cand : Option ℚ) : Option ℚ :=
  match cand with
  | none => cur
  | some c =>
    match cur with
    | none => some c
    | some k =>
      if (if sense = Sense.minimize then k < c else c < k) then some c
      else some k

theorem dualPart_bound_eq (s : MTState) (res : Res) :
    (dualPart s res).bestObjectiveBound =
      specDualUpdate s.sense s.bestObjectiveBound res.bestObjectiveBound := by
  unfold dualPart specDualUpdate
  cases hr : res.bestObjectiveBound with
  | none => rfl
  | some c =>
    by_cases hmin : s.sense = Sense.minimize <;>
      cases hs : s.bestObjectiveBound <;> simp [hmin, hs] <;>
      split <;> rename_i hlt <;> simp [hs, hlt]

/-- C4.  The dual-bound update changes the tracked bound only to a
strictly better value in the objective sense (or accepts any candidate
when no bound is tracked): it equals the specification acceptance rule,
it never regresses a tracked bound, a worse-or-equal candidate leaves
the state untouched, and the full `_update_dual_bound` leaves the dual
bound exactly as its dual-bound half computed it. -/
theorem C4_dual_bound_update_monotone :
    (∀ (s : MTState) (res : Res),
      (dualPart s res).bestObjectiveBound =
        specDualUpdate s.sense s.bestObjectiveBound
          res.bestObjectiveBound) ∧
    (∀ (s : MTState) (res : Res) (cur b' : ℚ),
      s.bestObjectiveBound = some cur →
      (dualPart s res).bestObjectiveBound = some b' →
      (if s.sense = Sense.minimize then cur ≤ b' else b' ≤ cur)) ∧
    (∀ (s : MTState) (res : Res) (cur c : ℚ),
      s.bestObjectiveBound = some cur → res.bestObjectiveBound = some c →
      ¬ (if s.sense = Sense.minimize then cur < c else c < cur) →
      dualPart s res = s) ∧
    (∀ (feasTol : ℚ) (s : MTState) (res : Res) (objs : List RelObj)
        (dv iv : List (Option ℚ)) (s' : MTState),
      updateDualBound feasTol s res objs dv iv = some s' →
      s'.bestObjectiveBound = (dualPart s res).bestObjectiveBound) := by
  refine ⟨dualPart_bound_eq, ?_, ?_, ?_⟩
  · intro s res cur b' hcur hb'
    rw [dualPart_bound_eq, hcur] at hb'
    cases hr : res.bestObjectiveBound with
    | none =>
      rw [hr] at hb'
      simp only [specDualUpdate, Option.some.injEq] at hb'
      subst hb'
      split <;> exact le_refl cur
    | some c =>
      rw [hr] at hb'
      simp only [specDualUpdate] at hb'
      split at hb' <;> rename_i hmin
      · rw [if_pos hmin]
        split at hb' <;> rename_i hlt <;>
          simp only [Option.some.injEq] at hb' <;> subst hb'
        · exact le_of_lt hlt
        · exact le_refl cur
      · rw [if_neg hmin]
        split at hb' <;> rename_i hlt <;>
          simp only [Option.some.injEq] at hb' <;> subst hb'
        · exact le_of_lt hlt
        · exact le_refl cur
  · intro s res cur c hcur hc hnot
    unfold dualPart
    rw [hc]
    dsimp only
    by_cases hmin : s.sense = Sense.minimize
    · rw [if_pos hmin, hcur]
      rw [if_pos hmin] at hnot
      dsimp only
      rw [if_neg (by exact_mod_cast hnot)]
    · rw [if_neg hmin, hcur]
      rw [if_neg hmin] at hnot
      dsimp only
      rw [if_neg (by exact_mod_cast hnot)]
  · intro feasTol s res objs dv iv s' h
    rcases updateDualBound_some_cases feasTol s s' res objs dv iv h with
      hc | hc
    · rw [hc]
    · rw [hc, updatePrimalBound_bound]

/-- C4 witness: a worse candidate (8 against tracked 10, minimize) is
rejected and the whole tracker state is unchanged. -/
theorem C4_dual_bound_update_monotone_witness :
    dualPart ⟨Sense.minimize, none, some 10, none⟩ ⟨some 8, none⟩ =
      ⟨Sense.minimize, none, some 10, none⟩ :=
  C4_dual_bound_update_monotone.2.2.1
    ⟨Sense.minimize, none, some 10, none⟩ ⟨some 8, none⟩ 10 8 rfl rfl
    (by norm_num)

theorem updatePrimalBound_apply (s : MTState) (res : Res)
    (iv : List (Option ℚ)) (c : ℚ)
    (hc : res.bestFeasibleObjective = some c) :
    (s.bestFeasibleObjective = none →
      updatePrimalBound s res iv =
        { s with bestFeasibleObjective := some c, incumbent := some iv }) ∧
    (∀ cur, s.bestFeasibleObjective = some cur →
      ((if s.sense = Sense.minimize then c < cur else cur < c) →
        updatePrimalBound s res iv =
          { s with bestFeasibleObjective := some c,
                   incumbent := some iv }) ∧
      (¬ (if s.sense = Sense.minimize then c < cur else cur < c) →
        updatePrimalBound s res iv = s)) := by
  constructor
  · intro hn
    unfold updatePrimalBound
    rw [hc, hn]
    rfl
  · intro cur hcur
    by_cases hmin : s.sense = Sense.minimize
    · rw [if_pos hmin]
      constructor
      · intro himp
        unfold updatePrimalBound
        rw [hc, hcur]
        simp [hmin, himp, hc]
      · intro hnot
        unfold updatePrimalBound
        rw [hc, hcur]
        simp [hmin, hnot]
    · rw [if_neg hmin]
      constructor
      · intro himp
        unfold updatePrimalBound
        rw [hc, hcur]
        simp [hmin, himp, hc]
      · intro hnot
        unfold updatePrimalBound
        rw [hc, hcur]
        simp [hmin, hnot]

/-- C5.  The primal-bound update through `_update_dual_bound` replaces
the tracked best feasible objective and incumbent only when the
candidate strictly improves in the objective sense and only after both
validation checks pass (constraint violation within tolerance, every
discrete value close to its rounded integer); a candidate failing
either check, or not strictly improving, leaves both unchanged. -/
theorem C5_primal_bound_update_validation (feasTol : ℚ) (s : MTState)
    (res : Res) (objs : List RelObj) (dv iv : List (Option ℚ))
    (s' : MTState)
    (h : updateDualBound feasTol s res objs dv iv = some s') :
    (∀ mv, getConstrViolation objs = some mv →
      XR.lt (XR.fin feasTol) mv = true →
      s'.bestFeasibleObjective = s.bestFeasibleObjective ∧
        s'.incumbent = s.incumbent) ∧
    (checkDiscrete dv = some false →
      s'.bestFeasibleObjective = s.bestFeasibleObjective ∧
        s'.incumbent = s.incumbent) ∧
    (∀ c cur, res.bestFeasibleObjective = some c →
      s.bestFeasibleObjective = some cur →
      ¬ (if s.sense = Sense.minimize then c < cur else cur < c) →
      s'.bestFeasibleObjective = s.bestFeasibleObjective ∧
        s'.incumbent = s.incumbent) ∧
    ((s'.bestFeasibleObjective ≠ s.bestFeasibleObjective ∨
        s'.incumbent ≠ s.incumbent) →
      ∃ c, res.bestFeasibleObjective = some c ∧
        s'.bestFeasibleObjective = some c ∧ s'.incumbent = some iv ∧
        checkDiscrete dv = some true ∧
        (∃ mv, getConstrViolation objs = some mv ∧
          XR.lt (XR.fin feasTol) mv = false) ∧
        (∀ cur, s.bestFeasibleObjective = some cur →
          (if s.sense = Sense.minimize then c < cur else cur < c))) := by
  have hUnch : ∀ t : MTState, t = dualPart s res →
      t.bestFeasibleObjective = s.bestFeasibleObjective ∧
        t.incumbent = s.incumbent := by
    intro t ht
    rw [ht]
    exact ⟨dualPart_feas s res, dualPart_incumbent s res⟩
  unfold updateDualBound at h
  cases hf : res.bestFeasibleObjective with
  | none =>
    rw [hf] at h
    have hs' := hUnch s' (Option.some.inj h).symm
    refine ⟨fun _ _ _ => hs', fun _ => hs', ?_, ?_⟩
    · intro c cur hc _ _
      exact absurd hc (by simp)
    · intro hch
      rcases hch with h1 | h1
      · exact absurd hs'.1 h1
      · exact absurd hs'.2 h1
  | some c0 =>
    rw [hf] at h
    cases hv : getConstrViolation objs with
    | none => rw [hv] at h; exact absurd h (by simp)
    | some mv0 =>
      rw [hv] at h
      dsimp only at h
      by_cases hLT : XR.lt (XR.fin feasTol) mv0 = true
      · rw [if_neg (not_not_intro hLT)] at h
        have hs' := hUnch s' (Option.some.inj h).symm
        refine ⟨fun _ _ _ => hs', fun _ => hs', fun _ _ _ _ _ => hs', ?_⟩
        intro hch
        rcases hch with h1 | h1
        · exact absurd hs'.1 h1
        · exact absurd hs'.2 h1
      · have hLTf : XR.lt (XR.fin feasTol) mv0 = false := by
          simpa using hLT
        rw [if_pos hLT] at h
        cases hd : checkDiscrete dv with
        | none => rw [hd] at h; exact absurd h (by simp)
        | some ac =>
          rw [hd] at h
          dsimp only at h
          cases ac with
          | false =>
            rw [if_neg (by simp)] at h
            have hs' := hUnch s' (Option.some.inj h).symm
            refine ⟨fun _ _ _ => hs', fun _ => hs',
              fun _ _ _ _ _ => hs', ?_⟩
            intro hch
            rcases hch with h1 | h1
            · exact absurd hs'.1 h1
            · exact absurd hs'.2 h1
          | true =>
            rw [if_pos rfl] at h
            have hs' : s' = updatePrimalBound (dualPart s res) res iv :=
              (Option.some.inj h).symm
            have hfeq : (dualPart s res).bestFeasibleObjective =
                s.bestFeasibleObjective := dualPart_feas s res
            have hseq : (dualPart s res).sense = s.sense :=
              dualPart_sense s res
            have happ := updatePrimalBound_apply (dualPart s res) res iv
              c0 hf
            cases hsf : s.bestFeasibleObjective with
            | none =>
              have hup := happ.1 (hfeq.trans hsf)
              rw [hup] at hs'
              subst hs'
              refine ⟨?_, ?_, ?_, ?_⟩
              · intro mv hmv hmvlt
                exfalso
                cases Option.some.inj hmv
                rw [hLTf] at hmvlt
                exact absurd hmvlt (by simp)
              · intro hdf
                exact absurd (Option.some.inj hdf) (by simp)
              · intro c cur _ hcur _
                exact absurd hcur (by simp)
              · intro _
                exact ⟨c0, rfl, rfl, rfl, rfl, ⟨mv0, rfl, hLTf⟩,
                  fun cur hcur => absurd hcur (by simp)⟩
            | some cur0 =>
              have happ2 := happ.2 cur0 (hfeq.trans hsf)
              by_cases himp :
                  (if s.sense = Sense.minimize then c0 < cur0
                   else cur0 < c0)
              · have hup := happ2.1 (by rw [hseq]; exact himp)
                rw [hup] at hs'
                subst hs'
                refine ⟨?_, ?_, ?_, ?_⟩
                · intro mv hmv hmvlt
                  exfalso
                  cases Option.some.inj hmv
                  rw [hLTf] at hmvlt
                  exact absurd hmvlt (by simp)
                · intro hdf
                  exact absurd (Option.some.inj hdf) (by simp)
                · intro c cur hc hcur hnot
                  exfalso
                  cases Option.some.inj hc
                  cases Option.some.inj hcur
                  exact absurd himp hnot
                · intro _
                  refine ⟨c0, rfl, rfl, rfl, rfl, ⟨mv0, rfl, hLTf⟩, ?_⟩
                  intro cur hcur
                  cases Option.some.inj hcur
                  exact himp
              · have hup := happ2.2 (by rw [hseq]; exact himp)
                rw [hup] at hs'
                subst hs'
                have e1 : (dualPart s res).bestFeasibleObjective =
                    some cur0 := hfeq.trans hsf
                have e2 : (dualPart s res).incumbent = s.incumbent :=
                  dualPart_incumbent s res
                refine ⟨fun _ _ _ => ⟨e1, e2⟩, fun _ => ⟨e1, e2⟩,
                  fun _ _ _ _ _ => ⟨e1, e2⟩, ?_⟩
                intro hch
                rcases hch with h1 | h1
                · exact absurd e1 h1
                · exact absurd e2 h1

/-- C5 witness: a candidate with a discrete value 1.4 (not within
rounding tolerance of an integer) is rejected, leaving the tracked
bound and incumbent unchanged. -/
theorem C5_primal_bound_update_validation_witness :
    updateDualBound (1 / 1000000) (initState Sense.minimize)
        ⟨none, some 5⟩ [⟨[some 1], 0⟩] [some (7 / 5)] [some 1] =
      some (initState Sense.minimize) ∧
    (initState Sense.minimize).bestFeasibleObjective =
      (initState Sense.minimize).bestFeasibleObjective ∧
    (initState Sense.minimize).incumbent =
      (initState Sense.minimize).incumbent := by
  have h75 : |(7 : ℚ) / 5| = 7 / 5 := abs_of_nonneg (by norm_num)
  have h25 : |(2 : ℚ) / 5| = 2 / 5 := abs_of_nonneg (by norm_num)
  have h : updateDualBound (1 / 1000000) (initState Sense.minimize)
      ⟨none, some 5⟩ [⟨[some 1], 0⟩] [some (7 / 5)] [some 1] =
      some (initState Sense.minimize) := by
    norm_num [updateDualBound, dualPart, getConstrViolation, violList,
      hasNoneVal, pymaxList, checkDiscrete, updatePrimalBound, initState,
      XR.lt, XR.pymax, pyIsClose, roundHalfEven, max_def, h75, h25]
  have h2 := C5_primal_bound_update_validation (1 / 1000000)
    (initState Sense.minimize) ⟨none, some 5⟩ [⟨[some 1], 0⟩]
    [some (7 / 5)] [some 1] (initState Sense.minimize) h
  refine ⟨h, h2.2.1 ?_⟩
  norm_num [checkDiscrete, pyIsClose, roundHalfEven, max_def, h75, h25]

theorem hasNoneVal_of_mem {l : List (Option ℚ)} (hm : none ∈ l) :
    hasNoneVal l = true := by
  induction l with
  | nil => cases hm
  | cons x xs ih =>
    cases x with
    | none => rfl
    | some q =>
      unfold hasNoneVal
      rcases List.mem_cons.mp hm with h | h
      · exact absurd h (by simp)
      · exact ih h

theorem foldl_pymax_fins_pinf (ds : List ℚ) :
    ∀ q : ℚ, List.foldl XR.pymax (XR.fin q) (ds.map XR.fin ++ [XR.pinf]) =
      XR.pinf := by
  induction ds with
  | nil => intro q; rfl
  | cons d ds ih =>
    intro q
    simp only [List.map_cons, List.cons_append, List.foldl_cons,
      XR.pymax_fin_fin]
    exact ih (max q d)

theorem pymaxList_fins_pinf (ds : List ℚ) :
    pymaxList (ds.map XR.fin ++ [XR.pinf]) = some XR.pinf := by
  cases ds with
  | nil => rfl
  | cons d ds =>
    simp only [List.map_cons, List.cons_append, pymaxList,
      Option.some.injEq]
    exact foldl_pymax_fins_pinf ds d

theorem violList_with_none (objs : List RelObj)
    (hm : ∃ b ∈ objs, none ∈ b.rhsVals) :
    ∃ ds : List ℚ, violList objs = ds.map XR.fin ++ [XR.pinf] := by
  induction objs with
  | nil => rcases hm with ⟨b, hb, _⟩; cases hb
  | cons b bs ih =>
    by_cases hb : hasNoneVal b.rhsVals = true
    · refine ⟨[], ?_⟩
      unfold violList
      rw [if_pos hb]
      rfl
    · rcases hm with ⟨b', hb', hn'⟩
      rcases List.mem_cons.mp hb' with h | h
      · exact absurd (hasNoneVal_of_mem (h ▸ hn')) hb
      · rcases ih ⟨b', h, hn'⟩ with ⟨ds, hds⟩
        refine ⟨b.deviation :: ds, ?_⟩
        unfold violList
        rw [if_neg hb, hds]
        rfl

/-- C10.  If any relaxation object has an unvalued (`None`)
right-hand-side variable when a relaxation solution is validated, the
computed constraint violation is `+inf` rather than an evaluation
error, so the candidate always fails the feasibility-tolerance check
and the tracked feasible objective and incumbent never change. -/
theorem C10_unvalued_rhs_vars_never_accepted (objs : List RelObj)
    (hm : ∃ b ∈ objs, none ∈ b.rhsVals) :
    getConstrViolation objs = some XR.pinf ∧
    (∀ (feasTol : ℚ) (s : MTState) (res : Res) (dv iv : List (Option ℚ))
        (s' : MTState),
      updateDualBound feasTol s res objs dv iv = some s' →
      s'.bestFeasibleObjective = s.bestFeasibleObjective ∧
        s'.incumbent = s.incumbent) := by
  have hg : getConstrViolation objs = some XR.pinf := by
    rcases violList_with_none objs hm with ⟨ds, hds⟩
    unfold getConstrViolation
    rw [hds]
    exact pymaxList_fins_pinf ds
  refine ⟨hg, ?_⟩
  intro feasTol s res dv iv s' h
  unfold updateDualBound at h
  cases hf : res.bestFeasibleObjective with
  | none =>
    rw [hf] at h
    rw [← Option.some.inj h]
    exact ⟨dualPart_feas s res, dualPart_incumbent s res⟩
  | some c0 =>
    rw [hf, hg] at h
    dsimp only at h
    rw [if_neg (by simp [XR.lt])] at h
    rw [← Option.some.inj h]
    exact ⟨dualPart_feas s res, dualPart_incumbent s res⟩

/-- C10 witness: a single relaxation object with its only
right-hand-side variable unvalued yields violation `+inf`. -/
theorem C10_unvalued_rhs_vars_never_accepted_witness :
    getConstrViolation [⟨[none], 7⟩] = some XR.pinf :=
  (C10_unvalued_rhs_vars_never_accepted [⟨[none], 7⟩]
    ⟨⟨[none], 7⟩, by simp, by simp⟩).1

/-- C9.  Amended claim: across two termination checks of one run, if the
tracked bounds only improve or stay equal (in the objective sense) and
the later state is sound (dual on the dual side of primal), then the
absolute gap is non-increasing.  The relative gap is not monotone in
general (see the counterexample). -/
theorem C9_abs_gap_monotone (s t : MTState) (hsen : t.sense = s.sense)
    (himp : if s.sense = Sense.minimize then
        XR.le (getPrimalBound t) (getPrimalBound s) = true ∧
        XR.le (getDualBound s) (getDualBound t) = true ∧
        XR.le (getDualBound t) (getPrimalBound t) = true
      else
        XR.le (getPrimalBound s) (getPrimalBound t) = true ∧
        XR.le (getDualBound t) (getDualBound s) = true ∧
        XR.le (getPrimalBound t) (getDualBound t) = true) :
    XR.le (getAbsAndRelGap t).1 (getAbsAndRelGap s).1 = true := by
  obtain ⟨sens, fos, bos, incs⟩ := s
  obtain ⟨sent, fot, bot, inct⟩ := t
  dsimp only at hsen
  subst hsen
  cases sent with
  | minimize =>
    rw [if_pos rfl] at himp
    obtain ⟨h1, h2, h3⟩ := himp
    cases fos with
    | none =>
      cases bos <;> cases fot <;> cases bot <;>
        simp [getAbsAndRelGap, getPrimalBound, getDualBound, XR.sub,
          XR.abs, XR.le]
    | some a =>
      cases bos with
      | none =>
        cases fot <;> cases bot <;>
          simp [getAbsAndRelGap, getPrimalBound, getDualBound, XR.sub,
            XR.abs, XR.le]
      | some b =>
        cases fot with
        | none =>
          exfalso
          simp [getPrimalBound, XR.le] at h1
        | some a' =>
          cases bot with
          | none =>
            exfalso
            simp [getDualBound, XR.le] at h2
          | some b' =>
            simp [getPrimalBound, getDualBound, XR.le] at h1 h2 h3
            simp [getAbsAndRelGap, getPrimalBound, getDualBound, XR.sub,
              XR.abs, XR.le]
            rw [abs_of_nonneg (by linarith : (0 : ℚ) ≤ a' - b')]
            refine le_trans ?_ (le_abs_self (a - b))
            linarith
  | maximize =>
    rw [if_neg (by simp)] at himp
    obtain ⟨h1, h2, h3⟩ := himp
    cases fos with
    | none =>
      cases bos <;> cases fot <;> cases bot <;>
        simp [getAbsAndRelGap, getPrimalBound, getDualBound, XR.sub,
          XR.abs, XR.le]
    | some a =>
      cases bos with
      | none =>
        cases fot <;> cases bot <;>
          simp [getAbsAndRelGap, getPrimalBound, getDualBound, XR.sub,
            XR.abs, XR.le]
      | some b =>
        cases fot with
        | none =>
          exfalso
          simp [getPrimalBound, XR.le] at h1
        | some a' =>
          cases bot with
          | none =>
            exfalso
            simp [getDualBound, XR.le] at h2
          | some b' =>
            simp [getPrimalBound, getDualBound, XR.le] at h1 h2 h3
            simp [getAbsAndRelGap, getPrimalBound, getDualBound, XR.sub,
              XR.abs, XR.le]
            rw [abs_of_nonpos (by linarith : a' - b' ≤ (0 : ℚ))]
            refine le_trans ?_ (neg_le_abs (a - b))
            linarith

/-- C9 witness: the absolute-gap monotonicity theorem applied to two
equal sound states (primal 5, dual 4, minimize). -/
theorem C9_abs_gap_monotone_witness :
    XR.le (getAbsAndRelGap ⟨Sense.minimize, some 5, some 4, none⟩).1
      (getAbsAndRelGap ⟨Sense.minimize, some 5, some 4, none⟩).1 = true :=
  C9_abs_gap_monotone ⟨Sense.minimize, some 5, some 4, none⟩
    ⟨Sense.minimize, some 5, some 4, none⟩ rfl
    (by norm_num [getPrimalBound, getDualBound, XR.le])

/-- C9 counterexample: with bounds only improving (primal 10 to 1, dual
unchanged at -10, minimize) and both states sound, the relative gap
rises from 2 to 11, so the claimed monotone non-increase of the
relative gap is false. -/
theorem C9_rel_gap_counterexample :
    XR.le (getPrimalBound ⟨Sense.minimize, some 1, some (-10), none⟩)
      (getPrimalBound ⟨Sense.minimize, some 10, some (-10), none⟩) =
        true ∧
    XR.le (getDualBound ⟨Sense.minimize, some 10, some (-10), none⟩)
      (getDualBound ⟨Sense.minimize, some 1, some (-10), none⟩) = true ∧
    XR.le (getDualBound ⟨Sense.minimize, some 1, some (-10), none⟩)
      (getPrimalBound ⟨Sense.minimize, some 1, some (-10), none⟩) =
        true ∧
    (getAbsAndRelGap ⟨Sense.minimize, some 10, some (-10), none⟩).2 =
      XR.fin 2 ∧
    (getAbsAndRelGap ⟨Sense.minimize, some 1, some (-10), none⟩).2 =
      XR.fin 11 ∧
    XR.lt (getAbsAndRelGap ⟨Sense.minimize, some 10, some (-10), none⟩).2
      (getAbsAndRelGap ⟨Sense.minimize, some 1, some (-10), none⟩).2 =
        true := by
  norm_num [getAbsAndRelGap, getPrimalBound, getDualBound, XR.abs, XR.sub,
    XR.le, XR.lt, XR.div, XR.isinf]

/-- The relaxation sides from `coramin.utils.coramin_enums`. -/
inductive RelaxationSide where
  | UNDER : RelaxationSide
  | OVER : RelaxationSide
  | BOTH : RelaxationSide
deriving DecidableEq, Repr

/-- One relaxation object as seen by `_partition_helper`: whether each
right-hand-side variable has both bounds, the current auxiliary-variable
value, the value of the right-hand-side expression, the relaxation side,
and the convexity and concavity classification of the right-hand side.
Variable values are assumed loaded (an unvalued variable would raise in
the source before this step). -/
structure PartObj where
  rhsHasBounds : List Bool
  auxVal : ℚ
  rhsVal : ℚ
  side : RelaxationSide
  rhsConvex : Bool
  rhsConcave : Bool
deriving DecidableEq, Repr

/-- The `dev_list` entry contributed by one relaxation object at
enumeration index `i`: the over side when the auxiliary value exceeds
the right-hand side beyond tolerance on a not-provably-concave term,
else the under side when it falls below beyond tolerance on a
not-provably-convex term, else nothing. -/
def devEntry (tol : ℚ) (i : ℕ) (b : PartObj) : List (ℕ × ℚ) :=
  if b.rhsVal + tol < b.auxVal ∧
      (b.side = RelaxationSide.BOTH ∨ b.side = RelaxationSide.OVER) ∧
      b.rhsConcave = false then
    [(i, b.auxVal - b.rhsVal)]
  else if b.auxVal < b.rhsVal - tol ∧
      (b.side = RelaxationSide.BOTH ∨ b.side = RelaxationSide.UNDER) ∧
      b.rhsConvex = false then
    [(i, b.rhsVal - b.auxVal)]
  else []

/-- The `dev_list` building loop of `_partition_helper`, indexed from
`i`.  The result is `none` when some object has a right-hand-side
variable without both bounds: the source then logs an error, records an
error stop flag and breaks out, discarding the deviation list, so no
refinement happens. -/
def buildDevList (tol : ℚ) : ℕ → List PartObj → Option (List (ℕ × ℚ))
  | _, [] => some []
  | i, b :: bs =>
    if b.rhsHasBounds.all (fun x => x) then
      match buildDevList tol (i + 1) bs with
      | none => none
      | some rest => some (devEntry tol i b ++ rest)
    else none

/-- The descending-deviation ordering used by
`dev_list.sort(key=..., reverse=True)`. -/
def devGE (a b : ℕ × ℚ) : Prop := b.2 ≤ a.2

instance : DecidableRel devGE := fun a b =>
  inferInstanceAs (Decidable (b.2 ≤ a.2))

instance : IsTotal (ℕ × ℚ) devGE := ⟨fun a b => le_total b.2 a.2⟩

instance : IsTrans (ℕ × ℚ) devGE := ⟨fun _ _ _ hab hbc => le_trans hbc hab⟩

/-- `MultiTree._partition_helper`: build the deviation list, sort it by
deviation descending (Python `list.sort` is stable, modelled by the
stable `List.insertionSort`), and refine the first
`max_partitions_per_iter` entries.  The result is the list of
(enumeration index, deviation) pairs refined, or `none` on the
unbounded-variable error path where nothing is refined. -/
def partitionHelper (tol : ℚ) (K : ℕ) (objs : List PartObj) :
    Option (List (ℕ × ℚ)) :=
  match buildDevList tol 0 objs with
  | none => none
  | some dl => some ((dl.insertionSort devGE).take K)

/-- Priority order on deviation entries: strictly larger deviation, or
equal deviation and smaller enumeration index. -/
def lexLE (a b : ℕ × ℚ) : Prop := b.2 < a.2 ∨ (a.2 = b.2 ∧ a.1 < b.1)

theorem buildDevList_idx_lb (tol : ℚ) :
    ∀ (objs : List PartObj) (i : ℕ) (E : List (ℕ × ℚ)),
    buildDevList tol i objs = some E → ∀ x ∈ E, i ≤ x.1 := by
  intro objs
  induction objs with
  | nil =>
    intro i E hE x hx
    simp only [buildDevList, Option.some.injEq] at hE
    subst hE
    cases hx
  | cons b bs ih =>
    intro i E hE x hx
    simp only [buildDevList] at hE
    split at hE
    · cases hrest : buildDevList tol (i + 1) bs with
      | none => rw [hrest] at hE; exact absurd hE (by simp)
      | some rest =>
        rw [hrest] at hE
        simp only [Option.some.injEq] at hE
        subst hE
        rcases List.mem_append.mp hx with h | h
        · unfold devEntry at h
          split at h
          · rw [List.mem_singleton] at h
            subst h
            exact le_refl i
          · split at h
            · rw [List.mem_singleton] at h
              subst h
              exact le_refl i
            · cases h
        · exact le_trans (Nat.le_succ i) (ih (i + 1) rest hrest x h)
    · exact absurd hE (by simp)

theorem buildDevList_idx_sorted (tol : ℚ) :
    ∀ (objs : List PartObj) (i : ℕ) (E : List (ℕ × ℚ)),
    buildDevList tol i objs = some E →
    List.Pairwise (fun a b : ℕ × ℚ => a.1 < b.1) E := by
  intro objs
  induction objs with
  | nil =>
    intro i E hE
    simp only [buildDevList, Option.some.injEq] at hE
    subst hE
    exact List.Pairwise.nil
  | cons b bs ih =>
    intro i E hE
    simp only [buildDevList] at hE
    split at hE
    · cases hrest : buildDevList tol (i + 1) bs with
      | none => rw [hrest] at hE; exact absurd hE (by simp)
      | some rest =>
        rw [hrest] at hE
        simp only [Option.some.injEq] at hE
        subst hE
        refine List.pairwise_append.mpr ⟨?_, ih (i + 1) rest hrest, ?_⟩
        · unfold devEntry
          split
          · exact List.pairwise_singleton _ _
          · split
            · exact List.pairwise_singleton _ _
            · exact List.Pairwise.nil
        · intro a ha c hc
          have hc' := buildDevList_idx_lb tol bs (i + 1) rest hrest c hc
          unfold devEntry at ha
          have hai : a.1 = i := by
            split at ha
            · rw [List.mem_singleton] at ha
              subst ha
              rfl
            · split at ha
              · rw [List.mem_singleton] at ha
                subst ha
                rfl
              · cases ha
          omega
    · exact absurd hE (by simp)

theorem orderedInsert_lex (a : ℕ × ℚ) :
    ∀ (l : List (ℕ × ℚ)), List.Pairwise lexLE l → (∀ b ∈ l, a.1 < b.1) →
    List.Pairwise lexLE (List.orderedInsert devGE a l) := by
  intro l
  induction l with
  | nil => intro _ _; exact List.pairwise_singleton _ _
  | cons b bs ih =>
    intro hl ha
    rw [List.orderedInsert]
    split
    · rename_i hge
      refine List.pairwise_cons.mpr ⟨?_, hl⟩
      intro x hx
      have hax : a.1 < x.1 := ha x hx
      have hxle : x.2 ≤ a.2 := by
        rcases List.mem_cons.mp hx with h | h
        · subst h; exact hge
        · rcases (List.pairwise_cons.mp hl).1 x h with h2 | h2
          · exact le_trans (le_of_lt h2) hge
          · exact le_trans (le_of_eq h2.1.symm) hge
      rcases lt_or_eq_of_le hxle with h2 | h2
      · exact Or.inl h2
      · exact Or.inr ⟨h2.symm, hax⟩
    · rename_i hnge
      have hblt : a.2 < b.2 := lt_of_not_le hnge
      refine List.pairwise_cons.mpr ⟨?_, ?_⟩
      · intro x hx
        rcases (List.mem_orderedInsert devGE).mp hx with h | h
        · subst h
          exact Or.inl hblt
        · exact (List.pairwise_cons.mp hl).1 x h
      · exact ih (List.pairwise_cons.mp hl).2
          (fun x hx => ha x (List.mem_cons_of_mem b hx))

theorem insertionSort_lex :
    ∀ (l : List (ℕ × ℚ)),
    List.Pairwise (fun a b : ℕ × ℚ => a.1 < b.1) l →
    List.Pairwise lexLE (l.insertionSort devGE) := by
  intro l
  induction l with
  | nil => intro _; exact List.Pairwise.nil
  | cons a t ih =>
    intro hl
    rw [List.insertionSort]
    refine orderedInsert_lex a _ (ih (List.pairwise_cons.mp hl).2) ?_
    intro b hb
    exact (List.pairwise_cons.mp hl).1 b
      ((List.perm_insertionSort devGE t).mem_iff.mp hb)

/-- C7.  On every non-error invocation, the refined set is the
eligible entries with the `max_partitions_per_iter` largest deviations:
never more than the cap, taken in descending deviation order, every
refined entry beating every unrefined eligible entry either by strictly
larger deviation or, at equal deviation, by smaller enumeration
order. -/
theorem C7_partition_selection (tol : ℚ) (K : ℕ) (objs : List PartObj)
    (E dl : List (ℕ × ℚ)) (hE : buildDevList tol 0 objs = some E)
    (hdl : partitionHelper tol K objs = some dl) :
    dl.length = min K E.length ∧
    (∀ x ∈ dl, x ∈ E) ∧
    List.Pairwise (fun a b : ℕ × ℚ => b.2 ≤ a.2) dl ∧
    (∀ r ∈ dl, ∀ e ∈ E, e ∉ dl →
      (e.2 < r.2 ∨ (e.2 = r.2 ∧ r.1 < e.1))) := by
  unfold partitionHelper at hdl
  rw [hE] at hdl
  simp only [Option.some.injEq] at hdl
  subst hdl
  have hperm := List.perm_insertionSort devGE E
  have hsorted : List.Pairwise devGE (E.insertionSort devGE) :=
    List.sorted_insertionSort devGE E
  have hlex : List.Pairwise lexLE (E.insertionSort devGE) :=
    insertionSort_lex E (buildDevList_idx_sorted tol objs 0 E hE)
  refine ⟨?_, ?_, ?_, ?_⟩
  · rw [List.length_take, List.length_insertionSort]
  · intro x hx
    exact hperm.subset (List.take_subset K _ hx)
  · exact hsorted.sublist (List.take_sublist K _)
  · intro r hr e heE hedl
    have heS : e ∈ E.insertionSort devGE := hperm.mem_iff.mpr heE
    have heD : e ∈ (E.insertionSort devGE).drop K := by
      rcases List.mem_append.mp
        ((List.take_append_drop K (E.insertionSort devGE)).symm ▸ heS)
        with h | h
      · exact absurd h hedl
      · exact h
    have hcross := (List.pairwise_append.mp
      ((List.take_append_drop K (E.insertionSort devGE)).symm ▸ hlex)).2.2
    rcases hcross r hr e heD with h | h
    · exact Or.inl h
    · exact Or.inr ⟨h.1.symm, h.2⟩

/-- Three eligible relaxation objects with deviations 5, 7 and 5. -/
def c7objs : List PartObj :=
  [⟨[true], 5, 0, RelaxationSide.BOTH, false, false⟩,
   ⟨[true], 7, 0, RelaxationSide.BOTH, false, false⟩,
   ⟨[true], 5, 0, RelaxationSide.BOTH, false, false⟩]

/-- C7 witness: with a cap of 2, the terms with the two largest
deviations are refined, the tie between the two deviation-5 terms
resolved in favour of the earlier one. -/
theorem C7_partition_selection_witness :
    partitionHelper (1 / 1000) 2 c7objs = some [(1, 7), (0, 5)] ∧
    ([(1, 7), (0, 5)] : List (ℕ × ℚ)).length =
      min 2 ([(0, 5), (1, 7), (2, 5)] : List (ℕ × ℚ)).length := by
  have hE : buildDevList (1 / 1000) 0 c7objs =
      some [(0, 5), (1, 7), (2, 5)] := by
    norm_num [c7objs, buildDevList, devEntry]
  have hdl : partitionHelper (1 / 1000) 2 c7objs =
      some [(1, 7), (0, 5)] := by
    norm_num [partitionHelper, hE, List.insertionSort, List.orderedInsert,
      devGE]
  exact ⟨hdl,
    (C7_partition_selection (1 / 1000) 2 c7objs _ _ hE hdl).1⟩

/-- A variable of an alphaBB term, with its box bounds. -/
structure VarBox where
  id : ℕ
  lb : ℚ
  ub : ℚ
deriving DecidableEq, Repr

/-- `_compute_alpha` from `coramin/relaxations/alphabb.py`.  The
symbolic Hessian obtained through `reverse_sd` and bounded entrywise by
`compute_bounds_on_expr` (both external collaborators) is modelled by
the interval-valued function `H`: `H i j` is the interval bound of the
Hessian entry for variables `i` and `j`, with `(0, 0)` for entries
missing from the derivative map, which is what `compute_bounds_on_expr`
returns on the constant zero; the intervals are assumed finite.  The
code accumulates, for each row `i`, the interval lower bound of the
diagonal entry minus, for every off-diagonal entry of the row, the
larger absolute endpoint of its interval, takes `-0.5` times that
total, and keeps the running maximum starting from zero. -/
def computeAlpha (n : ℕ) (H : ℕ → ℕ → ℚ × ℚ) : ℚ :=
  (List.range n).foldl
    (fun alpha i =>
      let tot :=
        (List.range n).foldl
          (fun tot j =>
            if i = j then tot
            else tot - max |(H i j).1| |(H i j).2|)
          (H i i).1
      let tot2 := -(1 / 2 : ℚ) * tot
      if alpha < tot2 then tot2 else alpha)
    0

/-- `_build_alphabb_relaxation`: the relaxation surrogate
`f(x) + alpha * sum over i of (x_i - lb_i) * (x_i - ub_i)`, modelled
semantically as a function of a variable assignment `A`. -/
def buildAlphabbRelaxation (f : (ℕ → ℚ) → ℚ) (xs : List VarBox)
    (alpha : ℚ) (A : ℕ → ℚ) : ℚ :=
  f A + alpha * (xs.map (fun x => (A x.id - x.lb) * (A x.id - x.ub))).sum

/-- The row total of the specification: the interval lower bound of the
diagonal Hessian entry minus the sum, over the off-diagonal entries of
the row, of the larger absolute endpoint of their interval bounds. -/
def specRowTot (n : ℕ) (H : ℕ → ℕ → ℚ × ℚ) (i : ℕ) : ℚ :=
  (H i i).1 -
    ∑ j in Finset.range n, if i = j then 0 else max |(H i j).1| |(H i j).2|

theorem foldl_sub_ite (i : ℕ) (g : ℕ → ℚ) :
    ∀ (l : List ℕ) (a : ℚ),
    l.foldl (fun t j => if i = j then t else t - g j) a =
      a - (l.map (fun j => if i = j then 0 else g j)).sum := by
  intro l
  induction l with
  | nil => intro a; simp
  | cons j l ih =>
    intro a
    rw [List.foldl_cons, ih, List.map_cons, List.sum_cons]
    by_cases h : i = j
    · rw [if_pos h, if_pos h]
      ring
    · rw [if_neg h, if_neg h]
      ring

theorem list_range_sum_eq (f : ℕ → ℚ) :
    ∀ n : ℕ, ((List.range n).map f).sum = ∑ j in Finset.range n, f j := by
  intro n
  induction n with
  | zero => simp
  | succ n ih =>
    rw [List.range_succ, List.map_append, List.sum_append,
      Finset.sum_range_succ, ih]
    simp

theorem foldl_max_props (T : ℕ → ℚ) :
    ∀ (l : List ℕ) (a : ℚ),
    (a ≤ l.foldl (fun al i => if al < T i then T i else al) a) ∧
    (∀ i ∈ l, T i ≤ l.foldl (fun al i => if al < T i then T i else al) a) ∧
    (l.foldl (fun al i => if al < T i then T i else al) a = a ∨
      ∃ i ∈ l, l.foldl (fun al i => if al < T i then T i else al) a = T i) ∧
    ((∀ i ∈ l, T i ≤ a) →
      l.foldl (fun al i => if al < T i then T i else al) a = a) := by
  intro l
  induction l with
  | nil => intro a; exact ⟨le_refl a, by simp, Or.inl rfl, fun _ => rfl⟩
  | cons j l ih =>
    intro a
    simp only [List.foldl_cons]
    by_cases hj : a < T j
    · rw [if_pos hj]
      obtain ⟨ih1, ih2, ih3, ih4⟩ := ih (T j)
      refine ⟨le_trans (le_of_lt hj) ih1, ?_, ?_, ?_⟩
      · intro i hi
        rcases List.mem_cons.mp hi with h | h
        · exact h ▸ ih1
        · exact ih2 i h
      · rcases ih3 with h | ⟨i, hi, h⟩
        · exact Or.inr ⟨j, List.mem_cons_self j l, h⟩
        · exact Or.inr ⟨i, List.mem_cons_of_mem j hi, h⟩
      · intro hall
        exact absurd (hall j (List.mem_cons_self j l)) (not_le.mpr hj)
    · rw [if_neg hj]
      obtain ⟨ih1, ih2, ih3, ih4⟩ := ih a
      refine ⟨ih1, ?_, ?_, ?_⟩
      · intro i hi
        rcases List.mem_cons.mp hi with h | h
        · exact h ▸ le_trans (not_lt.mp hj) ih1
        · exact ih2 i h
      · rcases ih3 with h | ⟨i, hi, h⟩
        · exact Or.inl h
        · exact Or.inr ⟨i, List.mem_cons_of_mem j hi, h⟩
      · intro hall
        exact ih4 (fun i hi => hall i (List.mem_cons_of_mem j hi))

theorem computeAlpha_as_foldl_max (n : ℕ) (H : ℕ → ℕ → ℚ × ℚ) :
    computeAlpha n H =
      (List.range n).foldl
        (fun al i => if al < -(1 / 2 : ℚ) * specRowTot n H i
          then -(1 / 2 : ℚ) * specRowTot n H i else al) 0 := by
  unfold computeAlpha
  congr 1
  funext alpha i
  rw [foldl_sub_ite i (fun j => max |(H i j).1| |(H i j).2|) (List.range n)
    (H i i).1]
  rw [list_range_sum_eq (fun j => if i = j then 0
    else max |(H i j).1| |(H i j).2|) n]
  rfl

/-- C8.  The computed alpha is the maximum over all rows of `-0.5`
times the row total (diagonal interval lower bound minus the larger
absolute interval endpoints of the off-diagonal entries), floored at
zero: it is nonnegative, dominates every row contribution, is attained
at zero or at some row, equals zero when every row total is
nonnegative, and the relaxation surrogate built from it is exactly
`f(x) + alpha * sum over i of (x_i - lb_i) * (x_i - ub_i)`. -/
theorem C8_alphabb_alpha (n : ℕ) (H : ℕ → ℕ → ℚ × ℚ) :
    0 ≤ computeAlpha n H ∧
    (∀ i, i < n → -(1 / 2 : ℚ) * specRowTot n H i ≤ computeAlpha n H) ∧
    (computeAlpha n H = 0 ∨
      ∃ i, i < n ∧ computeAlpha n H = -(1 / 2 : ℚ) * specRowTot n H i) ∧
    ((∀ i, i < n → 0 ≤ specRowTot n H i) → computeAlpha n H = 0) ∧
    (∀ (f : (ℕ → ℚ) → ℚ) (xs : List VarBox) (A : ℕ → ℚ),
      buildAlphabbRelaxation f xs (computeAlpha n H) A =
        f A + computeAlpha n H *
          (xs.map (fun x => (A x.id - x.lb) * (A x.id - x.ub))).sum) := by
  rw [computeAlpha_as_foldl_max]
  obtain ⟨h1, h2, h3, h4⟩ :=
    foldl_max_props (fun i => -(1 / 2 : ℚ) * specRowTot n H i)
      (List.range n) 0
  refine ⟨h1, ?_, ?_, ?_, fun f xs A => rfl⟩
  · intro i hi
    exact h2 i (List.mem_range.mpr hi)
  · rcases h3 with h | ⟨i, hi, h⟩
    · exact Or.inl h
    · exact Or.inr ⟨i, List.mem_range.mp hi, h⟩
  · intro hall
    refine h4 ?_
    intro i hi
    have := hall i (List.mem_range.mp hi)
    nlinarith

/-- C8 witness: for a two-variable term whose Hessian interval bounds
are constantly `(2, 2)`, every row total is zero, so the computed alpha
is zero. -/
theorem C8_alphabb_alpha_witness :
    computeAlpha 2 (fun _ _ => ((2 : ℚ), 2)) = 0 :=
  (C8_alphabb_alpha 2 (fun _ _ => ((2 : ℚ), 2))).2.2.2.1
    (by
      intro i hi
      interval_cases i <;>
        norm_num [specRowTot, Finset.sum_range_succ])

/-- One NLP-model variable: lower bound, upper bound, value and fixed
flag (mirroring a pyomo `_GeneralVarData` as used by
`_solve_nlp_with_fixed_vars`). -/
structure VarSt where
  lb : Option ℚ
  ub : Option ℚ
  val : Option ℚ
  fixed : Bool
deriving DecidableEq, Repr

/-- The mutable NLP-model state: its variables (by index) and the
active flag of each of its constraints (by index). -/
structure NlpState where
  vars : List VarSt
  cons : List Bool
deriving DecidableEq, Repr

/-- Apply `f` to the element at index `n`, if present. -/
def updAt {α : Type} (f : α → α) : ℕ → List α → List α
  | _, [] => []
  | 0, v :: vs => f v :: vs
  | n + 1, v :: vs => v :: updAt f n vs

theorem length_updAt {α : Type} (f : α → α) :
    ∀ (n : ℕ) (l : List α), (updAt f n l).length = l.length := by
  intro n l
  induction l generalizing n with
  | nil => cases n <;> rfl
  | cons v vs ih => cases n with
    | zero => rfl
    | succ m => simp [updAt, ih m]

theorem get?_updAt {α : Type} (f : α → α) :
    ∀ (n : ℕ) (l : List α) (i : ℕ),
    (updAt f n l).get? i = if i = n then (l.get? i).map f else l.get? i := by
  intro n l
  induction l generalizing n with
  | nil =>
    intro i
    cases n <;> simp [updAt]
  | cons v vs ih =>
    intro i
    cases n with
    | zero =>
      cases i with
      | zero => simp [updAt]
      | succ k => simp [updAt]
    | succ m =>
      cases i with
      | zero => simp [updAt]
      | succ k => simpa [updAt] using ih m k

/-- `v.fix(q)`: set the value and the fixed flag of variable `i`. -/
def fixVarAt (q : ℚ) (i : ℕ) (s : NlpState) : NlpState :=
  { s with vars :=
      updAt (fun v => { v with val := some q, fixed := true }) i s.vars }

/-- `v.unfix()`. -/
def unfixAt (i : ℕ) (s : NlpState) : NlpState :=
  { s with vars := updAt (fun v => { v with fixed := false }) i s.vars }

/-- `v.setlb(lb)` followed by `v.setub(ub)`. -/
def setBoundsAt (lb ub : ℚ) (i : ℕ) (s : NlpState) : NlpState :=
  { s with vars :=
      updAt (fun v => { v with lb := some lb, ub := some ub }) i s.vars }

/-- `v.value = q`. -/
def setValAt (q : ℚ) (i : ℕ) (s : NlpState) : NlpState :=
  { s with vars := updAt (fun v => { v with val := some q }) i s.vars }

/-- `BoundsManager.save_bounds`: snapshot every variable's bounds. -/
def saveBounds (s : NlpState) : List (Option ℚ × Option ℚ) :=
  s.vars.map (fun v => (v.lb, v.ub))

/-- `BoundsManager.pop_bounds`: restore every variable's bounds from
the snapshot, keeping current values and fixed flags. -/
def popBounds (saved : List (Option ℚ × Option ℚ)) (s : NlpState) :
    NlpState :=
  { s with vars :=
      (List.zipWith (fun bv v => { v with lb := bv.1, ub := bv.2 }) saved
        s.vars) }

/-- `c.activate()` on constraint `j`. -/
def activateAt (j : ℕ) (s : NlpState) : NlpState :=
  { s with cons := updAt (fun _ => true) j s.cons }

/-- The unfix loop `for v in fixed_vars: v.unfix()`. -/
def unfixAll : List ℕ → NlpState → NlpState
  | [], s => s
  | i :: is, s => unfixAll is (unfixAt i s)

/-- The reactivation loop `for c in active_constraints: c.activate()`. -/
def activateAll : List ℕ → NlpState → NlpState
  | [], s => s
  | j :: js, s => activateAll js (activateAt j s)

/-- The constraint indices active in the current state (the
`active_constraints` collection). -/
def activeIdxs (s : NlpState) : List ℕ :=
  (List.range s.cons.length).filter (fun j => s.cons.getD j false)

/-- One entry of `integer_var_values`: the fixed flag of the
relaxation-model discrete variable (the skip test reads the relaxation
variable, not its NLP counterpart), the index of the NLP counterpart,
and the relaxation value (possibly `None`). -/
structure DiscSpec where
  relFixed : Bool
  idx : ℕ
  value : Option ℚ
deriving DecidableEq, Repr

/-- One entry of `rhs_var_bounds`: the fixed flag of the
relaxation-model variable, the index of the NLP counterpart, and the
partition interval. -/
structure BndSpec where
  relFixed : Bool
  idx : ℕ
  lb : ℚ
  ub : ℚ
deriving DecidableEq, Repr

/-- The discrete-fixing loop of `_solve_nlp_with_fixed_vars`: skip
relaxation-fixed variables, abort (`none`) on a `None` value or on the
near-integer assertion (`math.isclose(val, round(val), rel_tol=1e-6,
abs_tol=1e-6)`) failing, otherwise fix the NLP counterpart at the
rounded value and record it in `fixed_vars`. -/
def fixDiscrete : List DiscSpec → NlpState → List ℕ →
    Option (NlpState × List ℕ)
  | [], s, fx => some (s, fx)
  | d :: ds, s, fx =>
    if d.relFixed then fixDiscrete ds s fx
    else
      match d.value with
      | none => none
      | some q =>
        if pyIsClose (1 / 1000000) (1 / 1000000) q
            ((roundHalfEven q : ℤ) : ℚ) then
          fixDiscrete ds (fixVarAt ((roundHalfEven q : ℤ) : ℚ) d.idx s)
            (fx ++ [d.idx])
        else none

/-- The bound-restriction loop: skip relaxation-fixed variables,
otherwise apply the partition interval to the NLP counterpart. -/
def applyRhsBounds : List BndSpec → NlpState → NlpState
  | [], s => s
  | b :: bs, s =>
    applyRhsBounds bs
      (if b.relFixed then s else setBoundsAt b.lb b.ub b.idx s)

/-- The midpoint pass after FBBT: every unfixed variable with both
bounds is fixed at the midpoint when the bounds are close
(`math.isclose` defaults) and recorded in `fixed_vars`, else its value
is set to the midpoint. -/
def midFix : List ℕ → NlpState → List ℕ → NlpState × List ℕ
  | [], s, fx => (s, fx)
  | i :: is, s, fx =>
    match s.vars.get? i with
    | none => midFix is s fx
    | some v =>
      if v.fixed then midFix is s fx
      else
        match v.lb, v.ub with
        | some lb, some ub =>
          if pyIsClose (1 / 1000000000) 0 lb ub then
            midFix is (fixVarAt ((lb + ub) / 2) i s) (fx ++ [i])
          else midFix is (setValAt ((lb + ub) / 2) i s) fx
        | _, _ => midFix is s fx

/-- Is any variable still unfixed? -/
def anyUnfixed (s : NlpState) : Bool := s.vars.any (fun v => !v.fixed)

/-- `MultiTree._solve_nlp_with_fixed_vars`.  `fbbt` models
`IntervalTightener.perform_fbbt` (returning whether the model was NOT
proven infeasible, together with the mutated state); `solver` models
`nlp_solver.solve` followed by the conditional `load_vars`; `obj`
models evaluating the objective in the fully-determined shortcut.  The
tracker update `_update_primal_bound(nlp_res)` reads the NLP variable
values as the incumbent.  The result is `none` when the run aborts on
an assertion or a `None` value; otherwise the final NLP state and
tracker state. -/
def solveNlpWithFixedVars (fbbt : NlpState → Bool × NlpState)
    (solver : NlpState → NlpState × Res) (obj : NlpState → ℚ)
    (disc : List DiscSpec) (bnds : List BndSpec)
    (s0 : NlpState) (tr : MTState) : Option (NlpState × MTState) :=
  let saved := saveBounds s0
  match fixDiscrete disc s0 [] with
  | none => none
  | some (s1, fx1) =>
    let s2 := applyRhsBounds bnds s1
    let ac := activeIdxs s2
    let fbres := fbbt s2
    let step : Option (NlpState × List ℕ × Res) :=
      if fbres.1 then
        let mid := midFix (List.range fbres.2.vars.length) fbres.2 fx1
        if anyUnfixed mid.1 then
          let sv := solver mid.1
          some (sv.1, mid.2, sv.2)
        else
          if ac.any (fun j => mid.1.cons.getD j false) then none
          else
            some (mid.1, mid.2,
              (⟨some (obj mid.1), some (obj mid.1)⟩ : Res))
      else some (fbres.2, fx1, (⟨none, none⟩ : Res))
    match step with
    | none => none
    | some (s5, fx, res) =>
      let tr2 := updatePrimalBound tr res (s5.vars.map (fun v => v.val))
      some (activateAll ac (popBounds saved (unfixAll fx s5)), tr2)

/-- The fixed flag of variable `i`, if the index is in range. -/
def varFixed? (s : NlpState) (i : ℕ) : Option Bool :=
  (s.vars.get? i).map VarSt.fixed

/-- The bookkeeping invariant of the `fixed_vars` list: indices outside
it have their entry-state fixed flag, and every recorded index was
unfixed in the entry state `s0`. -/
def FixInv (s0 s : NlpState) (fx : List ℕ) : Prop :=
  (∀ i, i ∉ fx → varFixed? s i = varFixed? s0 i) ∧
  (∀ i ∈ fx, ∀ v, s0.vars.get? i = some v → v.fixed = false)

theorem FixInv_init (s0 : NlpState) : FixInv s0 s0 [] :=
  ⟨fun _ _ => rfl, fun i hi => absurd hi (by simp)⟩

theorem FixInv_of_fixed_eq {s0 s s' : NlpState} {fx : List ℕ}
    (hinv : FixInv s0 s fx) (heq : ∀ i, varFixed? s' i = varFixed? s i) :
    FixInv s0 s' fx :=
  ⟨fun i hi => (heq i).trans (hinv.1 i hi), hinv.2⟩

theorem varFixed?_fixVarAt (q : ℚ) (k : ℕ) (s : NlpState) (i : ℕ) :
    varFixed? (fixVarAt q k s) i =
      if i = k then (varFixed? s i).map (fun _ => true)
      else varFixed? s i := by
  unfold varFixed? fixVarAt
  dsimp only
  rw [get?_updAt]
  split
  · cases s.vars.get? i <;> simp
  · rfl

theorem varFixed?_setValAt (q : ℚ) (k : ℕ) (s : NlpState) (i : ℕ) :
    varFixed? (setValAt q k s) i = varFixed? s i := by
  unfold varFixed? setValAt
  dsimp only
  rw [get?_updAt]
  split
  · cases s.vars.get? i <;> simp
  · rfl

theorem varFixed?_setBoundsAt (lb ub : ℚ) (k : ℕ) (s : NlpState)
    (i : ℕ) : varFixed? (setBoundsAt lb ub k s) i = varFixed? s i := by
  unfold varFixed? setBoundsAt
  dsimp only
  rw [get?_updAt]
  split
  · cases s.vars.get? i <;> simp
  · rfl

theorem FixInv_extend {s0 s : NlpState} {fx : List ℕ} {k : ℕ} {q : ℚ}
    (hinv : FixInv s0 s fx)
    (hk : ∀ v, s0.vars.get? k = some v → v.fixed = false) :
    FixInv s0 (fixVarAt q k s) (fx ++ [k]) := by
  constructor
  · intro i hi
    have hik : i ≠ k := fun h => hi (List.mem_append.mpr (Or.inr
      (by simp [h])))
    have hifx : i ∉ fx := fun h => hi (List.mem_append.mpr (Or.inl h))
    rw [varFixed?_fixVarAt, if_neg hik]
    exact hinv.1 i hifx
  · intro i hi v hv
    rcases List.mem_append.mp hi with h | h
    · exact hinv.2 i h v hv
    · rw [List.mem_singleton] at h
      subst h
      exact hk v hv

theorem fixDiscrete_inv (s0 : NlpState) :
    ∀ (ds : List DiscSpec) (s : NlpState) (fx : List ℕ)
      (s' : NlpState) (fx' : List ℕ),
    fixDiscrete ds s fx = some (s', fx') →
    FixInv s0 s fx →
    (∀ d ∈ ds, d.relFixed = false →
      ∀ v, s0.vars.get? d.idx = some v → v.fixed = false) →
    FixInv s0 s' fx' ∧ s'.vars.length = s.vars.length ∧
      s'.cons = s.cons := by
  intro ds
  induction ds with
  | nil =>
    intro s fx s' fx' h hinv _
    simp only [fixDiscrete, Option.some.injEq, Prod.mk.injEq] at h
    obtain ⟨rfl, rfl⟩ := h
    exact ⟨hinv, rfl, rfl⟩
  | cons d ds ih =>
    intro s fx s' fx' h hinv hd
    simp only [fixDiscrete] at h
    split at h
    · exact ih s fx s' fx' h hinv
        (fun e he => hd e (List.mem_cons_of_mem d he))
    · rename_i hrf
      cases hq : d.value with
      | none => rw [hq] at h; exact absurd h (by simp)
      | some q =>
        rw [hq] at h
        dsimp only at h
        split at h
        · have hstep := ih (fixVarAt ((roundHalfEven q : ℤ) : ℚ) d.idx s)
            (fx ++ [d.idx]) s' fx' h
            (FixInv_extend hinv
              (hd d (List.mem_cons_self d ds) (by simpa using hrf)))
            (fun e he => hd e (List.mem_cons_of_mem d he))
          refine ⟨hstep.1, ?_, hstep.2.2⟩
          rw [hstep.2.1]
          unfold fixVarAt
          exact length_updAt _ _ _
        · exact absurd h (by simp)

theorem applyRhsBounds_pres :
    ∀ (bs : List BndSpec) (s : NlpState),
    (applyRhsBounds bs s).cons = s.cons ∧
    (applyRhsBounds bs s).vars.length = s.vars.length ∧
    (∀ i, varFixed? (applyRhsBounds bs s) i = varFixed? s i) := by
  intro bs
  induction bs with
  | nil => intro s; exact ⟨rfl, rfl, fun _ => rfl⟩
  | cons b bs ih =>
    intro s
    simp only [applyRhsBounds]
    split
    · exact ih s
    · obtain ⟨h1, h2, h3⟩ := ih (setBoundsAt b.lb b.ub b.idx s)
      refine ⟨h1, ?_, ?_⟩
      · rw [h2]
        unfold setBoundsAt
        exact length_updAt _ _ _
      · intro i
        rw [h3 i, varFixed?_setBoundsAt]

theorem midFix_inv (s0 : NlpState) :
    ∀ (idxs : List ℕ) (s : NlpState) (fx : List ℕ),
    FixInv s0 s fx →
    FixInv s0 (midFix idxs s fx).1 (midFix idxs s fx).2 ∧
    (midFix idxs s fx).1.vars.length = s.vars.length ∧
    (midFix idxs s fx).1.cons = s.cons := by
  intro idxs
  induction idxs with
  | nil => intro s fx hinv; exact ⟨hinv, rfl, rfl⟩
  | cons i idxs ih =>
    intro s fx hinv
    simp only [midFix]
    cases hgi : s.vars.get? i with
    | none => exact ih s fx hinv
    | some v =>
      dsimp only
      split
      · exact ih s fx hinv
      · rename_i hvf
        cases hlb : v.lb with
        | none => cases v.ub <;> exact ih s fx hinv
        | some lb =>
          cases hub : v.ub with
          | none => exact ih s fx hinv
          | some ub =>
            dsimp only
            split
            · have hk : ∀ v0, s0.vars.get? i = some v0 → v0.fixed = false := by
                intro v0 hv0
                by_cases hifx : i ∈ fx
                · exact hinv.2 i hifx v0 hv0
                · have := hinv.1 i hifx
                  unfold varFixed? at this
                  rw [hgi, hv0] at this
                  simp at this
                  rw [← this]
                  simpa using hvf
              obtain ⟨a1, a2, a3⟩ := ih
                (fixVarAt ((lb + ub) / 2) i s) (fx ++ [i])
                (FixInv_extend hinv hk)
              refine ⟨a1, ?_, a3⟩
              rw [a2]
              unfold fixVarAt
              exact length_updAt _ _ _
            · obtain ⟨a1, a2, a3⟩ := ih (setValAt ((lb + ub) / 2) i s) fx
                (FixInv_of_fixed_eq hinv
                  (fun j => varFixed?_setValAt ((lb + ub) / 2) i s j))
              refine ⟨a1, ?_, a3⟩
              rw [a2]
              unfold setValAt
              exact length_updAt _ _ _

theorem unfixAll_get? :
    ∀ (fx : List ℕ) (s : NlpState) (i : ℕ),
    (unfixAll fx s).vars.get? i =
      if i ∈ fx then (s.vars.get? i).map (fun v => { v with fixed := false })
      else s.vars.get? i := by
  intro fx
  induction fx with
  | nil => intro s i; simp [unfixAll]
  | cons a fx ih =>
    intro s i
    simp only [unfixAll]
    rw [ih]
    unfold unfixAt
    dsimp only
    rw [get?_updAt]
    by_cases hifx : i ∈ fx
    · rw [if_pos hifx, if_pos (List.mem_cons_of_mem a hifx)]
      by_cases hia : i = a
      · rw [if_pos hia]
        cases s.vars.get? i <;> simp
      · rw [if_neg hia]
    · rw [if_neg hifx]
      by_cases hia : i = a
      · rw [if_pos hia, if_pos (List.mem_cons.mpr (Or.inl hia))]
      · rw [if_neg hia, if_neg (by simp [List.mem_cons, hia, hifx])]

theorem unfixAll_cons : ∀ (fx : List ℕ) (s : NlpState),
    (unfixAll fx s).cons = s.cons := by
  intro fx
  induction fx with
  | nil => intro s; rfl
  | cons a fx ih => intro s; simp only [unfixAll]; rw [ih]; rfl

theorem unfixAll_length : ∀ (fx : List ℕ) (s : NlpState),
    (unfixAll fx s).vars.length = s.vars.length := by
  intro fx
  induction fx with
  | nil => intro s; rfl
  | cons a fx ih =>
    intro s
    simp only [unfixAll]
    rw [ih]
    unfold unfixAt
    exact length_updAt _ _ _

theorem activateAll_vars : ∀ (js : List ℕ) (s : NlpState),
    (activateAll js s).vars = s.vars := by
  intro js
  induction js with
  | nil => intro s; rfl
  | cons j js ih => intro s; simp only [activateAll]; rw [ih]; rfl

theorem activateAll_cons_get? :
    ∀ (js : List ℕ) (s : NlpState) (j : ℕ),
    (activateAll js s).cons.get? j =
      if j ∈ js ∧ j < s.cons.length then some true else s.cons.get? j := by
  intro js
  induction js with
  | nil => intro s j; simp [activateAll]
  | cons a js ih =>
    intro s j
    simp only [activateAll]
    rw [ih]
    unfold activateAt
    dsimp only
    rw [length_updAt, get?_updAt]
    by_cases hmem : j ∈ js
    · by_cases hlt : j < s.cons.length
      · rw [if_pos ⟨hmem, hlt⟩,
          if_pos ⟨List.mem_cons_of_mem a hmem, hlt⟩]
      · rw [if_neg (fun hh => hlt hh.2)]
        rw [if_neg (show ¬ (j ∈ a :: js ∧ j < s.cons.length) from
          fun hh => hlt hh.2)]
        have hnone : s.cons.get? j = none :=
          List.get?_eq_none.mpr (not_lt.mp hlt)
        split
        · rw [hnone]; rfl
        · rfl
    · by_cases hja : j = a
      · by_cases hlt : j < s.cons.length
        · rw [if_neg (fun hh => hmem hh.1), if_pos hja,
            if_pos ⟨List.mem_cons.mpr (Or.inl hja), hlt⟩]
          cases hg : s.cons.get? j with
          | none => exact absurd (List.get?_eq_none.mp hg) (not_le.mpr hlt)
          | some b => simp
        · rw [if_neg (fun hh => hmem hh.1), if_pos hja,
            if_neg (fun hh => hlt hh.2)]
          rw [List.get?_eq_none.mpr (not_lt.mp hlt)]
          rfl
      · rw [if_neg (fun hh => hmem hh.1), if_neg hja,
          if_neg (by
            intro hh
            rcases List.mem_cons.mp hh.1 with h | h
            · exact hja h
            · exact hmem h)]

theorem popBounds_get? (s0 s : NlpState) (i : ℕ) :
    (popBounds (saveBounds s0) s).vars.get? i =
      match s0.vars.get? i, s.vars.get? i with
      | some v0, some v => some { v with lb := v0.lb, ub := v0.ub }
      | _, _ => none := by
  unfold popBounds saveBounds
  dsimp only
  rw [List.get?_zipWith', List.get?_map]
  cases s0.vars.get? i <;> cases s.vars.get? i <;> rfl

theorem popBounds_cons (saved : List (Option ℚ × Option ℚ))
    (s : NlpState) : (popBounds saved s).cons = s.cons := rfl

theorem restore_state (s0 s : NlpState) (fx ac : List ℕ)
    (hinv : FixInv s0 s fx)
    (hlen : s.vars.length = s0.vars.length)
    (hclen : s.cons.length = s0.cons.length)
    (hac : ∀ j, s0.cons.get? j = some true → j ∈ ac) :
    (∀ i, ((activateAll ac (popBounds (saveBounds s0)
        (unfixAll fx s))).vars.get? i).map
          (fun v => (v.lb, v.ub, v.fixed)) =
      (s0.vars.get? i).map (fun v => (v.lb, v.ub, v.fixed))) ∧
    (∀ j, s0.cons.get? j = some true →
      (activateAll ac (popBounds (saveBounds s0)
        (unfixAll fx s))).cons.get? j = some true) := by
  constructor
  · intro i
    rw [activateAll_vars, popBounds_get?, unfixAll_get?]
    cases h0 : s0.vars.get? i with
    | none =>
      have hge : s0.vars.length ≤ i := List.get?_eq_none.mp h0
      have hs : s.vars.get? i = none :=
        List.get?_eq_none.mpr (hlen ▸ hge)
      rw [hs]
    | some v0 =>
      have hlt : i < s0.vars.length := by
        by_contra hge
        rw [List.get?_eq_none.mpr (not_lt.mp hge)] at h0
        cases h0
      obtain ⟨v, hs⟩ : ∃ v, s.vars.get? i = some v := by
        cases hsv : s.vars.get? i with
        | none =>
          have := List.get?_eq_none.mp hsv
          omega
        | some v => exact ⟨v, rfl⟩
      rw [hs]
      by_cases hifx : i ∈ fx
      · rw [if_pos hifx]
        have hv0 : v0.fixed = false := hinv.2 i hifx v0 h0
        simp [hv0]
      · rw [if_neg hifx]
        have hfe := hinv.1 i hifx
        unfold varFixed? at hfe
        rw [hs, h0] at hfe
        simp only [Option.map_some'] at hfe
        simp [Option.some.inj hfe]
  · intro j hj
    have hmem := hac j hj
    have hjlt : j < s0.cons.length := by
      by_contra hge
      rw [List.get?_eq_none.mpr (not_lt.mp hge)] at hj
      cases hj
    rw [activateAll_cons_get?, popBounds_cons, unfixAll_cons,
      if_pos ⟨hmem, hclen ▸ hjlt⟩]

theorem mem_activeIdxs (s : NlpState) (j : ℕ)
    (h : s.cons.get? j = some true) : j ∈ activeIdxs s := by
  unfold activeIdxs
  rw [List.mem_filter]
  have hlt : j < s.cons.length := by
    by_contra hge
    rw [List.get?_eq_none.mpr (not_lt.mp hge)] at h
    cases h
  refine ⟨List.mem_range.mpr hlt, ?_⟩
  have hD : s.cons.getD j false = (s.cons.get? j).getD false := by
    rw [List.getD_eq_getElem?_getD, ← List.get?_eq_getElem?]
  rw [hD, h]
  rfl

/-- C6.  The NLP fixing step restores the NLP model on every normal
exit path: after the call every variable has its entry lower bound,
upper bound and fixed flag, and every constraint active on entry is
active again.  The collaborator hypotheses state the frame contract of
FBBT and of the NLP solver: they may tighten bounds, change values and
deactivate constraints, but preserve the variable set, the fixed flags
and the constraint set; the hypothesis on `disc` states the
relaxation/NLP consistency invariant that a discrete variable whose
relaxation counterpart is unfixed is unfixed in the NLP model too. -/
theorem C6_nlp_scoped_mutation
    (fbbt : NlpState → Bool × NlpState)
    (solver : NlpState → NlpState × Res) (obj : NlpState → ℚ)
    (disc : List DiscSpec) (bnds : List BndSpec)
    (s0 : NlpState) (tr : MTState) (sF : NlpState) (trF : MTState)
    (Hf : ∀ s, (fbbt s).2.vars.length = s.vars.length ∧
      (∀ i, varFixed? (fbbt s).2 i = varFixed? s i) ∧
      (fbbt s).2.cons.length = s.cons.length)
    (Hs : ∀ s, (solver s).1.vars.length = s.vars.length ∧
      (∀ i, varFixed? (solver s).1 i = varFixed? s i) ∧
      (solver s).1.cons.length = s.cons.length)
    (Hd : ∀ d ∈ disc, d.relFixed = false →
      ∀ v, s0.vars.get? d.idx = some v → v.fixed = false)
    (h : solveNlpWithFixedVars fbbt solver obj disc bnds s0 tr =
      some (sF, trF)) :
    (∀ i, (sF.vars.get? i).map (fun v => (v.lb, v.ub, v.fixed)) =
      (s0.vars.get? i).map (fun v => (v.lb, v.ub, v.fixed))) ∧
    (∀ j, s0.cons.get? j = some true → sF.cons.get? j = some true) := by
  unfold solveNlpWithFixedVars at h
  cases hfd : fixDiscrete disc s0 [] with
  | none => rw [hfd] at h; exact absurd h (by simp)
  | some p =>
    obtain ⟨s1, fx1⟩ := p
    rw [hfd] at h
    dsimp only at h
    obtain ⟨inv1, len1, cons1⟩ :=
      fixDiscrete_inv s0 disc s0 [] s1 fx1 hfd (FixInv_init s0) Hd
    obtain ⟨cons2, len2, fix2⟩ := applyRhsBounds_pres bnds s1
    have inv2 : FixInv s0 (applyRhsBounds bnds s1) fx1 :=
      FixInv_of_fixed_eq inv1 fix2
    have hconsAll : (applyRhsBounds bnds s1).cons = s0.cons :=
      cons2.trans cons1
    have hac : ∀ j, s0.cons.get? j = some true →
        j ∈ activeIdxs (applyRhsBounds bnds s1) := by
      intro j hj
      exact mem_activeIdxs _ j (by rw [hconsAll]; exact hj)
    obtain ⟨flen, ffix, fclen⟩ := Hf (applyRhsBounds bnds s1)
    cases hfb : fbbt (applyRhsBounds bnds s1) with
    | mk feas s3 =>
      rw [hfb] at h
      have flen3 : s3.vars.length = (applyRhsBounds bnds s1).vars.length :=
        by rw [← flen, hfb]
      have ffix3 : ∀ i, varFixed? s3 i =
          varFixed? (applyRhsBounds bnds s1) i := by
        intro i; rw [← ffix i, hfb]
      have fclen3 : s3.cons.length = (applyRhsBounds bnds s1).cons.length :=
        by rw [← fclen, hfb]
      have inv3 : FixInv s0 s3 fx1 := FixInv_of_fixed_eq inv2 ffix3
      cases feas with
      | false =>
        rw [if_neg (by simp)] at h
        dsimp only at h
        simp only [Option.some.injEq, Prod.mk.injEq] at h
        obtain ⟨h1, h2⟩ := h
        rw [← h1]
        exact restore_state s0 s3 fx1 _ inv3
          (flen3.trans (len2.trans len1))
          (fclen3.trans (by rw [hconsAll])) hac
      | true =>
        rw [if_pos rfl] at h
        dsimp only at h
        cases hmid : midFix (List.range s3.vars.length) s3 fx1 with
        | mk s4 fx2 =>
          rw [hmid] at h
          dsimp only at h
          obtain ⟨inv4, len4, cons4⟩ :=
            midFix_inv s0 (List.range s3.vars.length) s3 fx1 inv3
          rw [hmid] at inv4 len4 cons4
          dsimp only at inv4 len4 cons4
          have hlen4 : s4.vars.length = s0.vars.length :=
            len4.trans (flen3.trans (len2.trans len1))
          have hclen4 : s4.cons.length = s0.cons.length := by
            rw [cons4]
            exact fclen3.trans (by rw [hconsAll])
          cases hau : anyUnfixed s4 with
          | true =>
            rw [hau, if_pos rfl] at h
            cases hsv : solver s4 with
            | mk s5 res =>
              rw [hsv] at h
              try dsimp only at h
              obtain ⟨slen, sfix, sclen⟩ := Hs s4
              rw [hsv] at slen sfix sclen
              try dsimp only at slen sfix sclen
              have inv5 : FixInv s0 s5 fx2 :=
                FixInv_of_fixed_eq inv4 sfix
              simp only [Option.some.injEq, Prod.mk.injEq] at h
              obtain ⟨h1, h2⟩ := h
              rw [← h1]
              exact restore_state s0 s5 fx2 _ inv5
                (slen.trans hlen4) (sclen.trans hclen4) hac
          | false =>
            rw [hau, if_neg (by simp)] at h
            cases hany : (activeIdxs (applyRhsBounds bnds s1)).any
                (fun j => s4.cons.getD j false) with
            | true =>
              rw [hany, if_pos rfl] at h
              exact absurd h (by simp)
            | false =>
              rw [hany, if_neg (by simp)] at h
              simp only [Option.some.injEq, Prod.mk.injEq] at h
              obtain ⟨h1, h2⟩ := h
              rw [← h1]
              exact restore_state s0 s4 fx2 _ inv4 hlen4 hclen4 hac

/-- C6 witness: a two-variable model (discrete variable 0 fixed at 1,
continuous variable 1 set to its midpoint, identity FBBT and solver);
after the call the bounds and fixed flags of variable 0 and the active
flag of the single constraint are restored. -/
theorem C6_nlp_scoped_mutation_witness :
    solveNlpWithFixedVars (fun s => (true, s))
        (fun s => (s, ⟨none, none⟩)) (fun _ => 0) [⟨false, 0, some 1⟩] []
        ⟨[⟨some 0, some 2, none, false⟩, ⟨some 0, some 2, none, false⟩],
          [true]⟩ (initState Sense.minimize) =
      some (⟨[⟨some 0, some 2, some 1, false⟩,
          ⟨some 0, some 2, some 1, false⟩], [true]⟩,
        initState Sense.minimize) ∧
    ((⟨[⟨some 0, some 2, some 1, false⟩,
          ⟨some 0, some 2, some 1, false⟩], [true]⟩ :
        NlpState).vars.get? 0).map (fun v => (v.lb, v.ub, v.fixed)) =
      ((⟨[⟨some 0, some 2, none, false⟩, ⟨some 0, some 2, none, false⟩],
          [true]⟩ : NlpState).vars.get? 0).map
        (fun v => (v.lb, v.ub, v.fixed)) ∧
    (⟨[⟨some 0, some 2, some 1, false⟩,
        ⟨some 0, some 2, some 1, false⟩], [true]⟩ :
      NlpState).cons.get? 0 = some true := by
  have h : solveNlpWithFixedVars (fun s => (true, s))
      (fun s => (s, ⟨none, none⟩)) (fun _ => 0) [⟨false, 0, some 1⟩] []
      ⟨[⟨some 0, some 2, none, false⟩, ⟨some 0, some 2, none, false⟩],
        [true]⟩ (initState Sense.minimize) =
      some (⟨[⟨some 0, some 2, some 1, false⟩,
          ⟨some 0, some 2, some 1, false⟩], [true]⟩,
        initState Sense.minimize) := by
    norm_num [solveNlpWithFixedVars, fixDiscrete, applyRhsBounds,
      activeIdxs, midFix, anyUnfixed, unfixAll, unfixAt, popBounds,
      saveBounds, activateAll, activateAt, updAt, fixVarAt, setValAt,
      pyIsClose, roundHalfEven, updatePrimalBound, initState, max_def,
      List.range_succ, List.filter, List.any, List.zipWith, List.getD]
  have hm := C6_nlp_scoped_mutation (fun s => (true, s))
    (fun s => (s, ⟨none, none⟩)) (fun _ => 0) [⟨false, 0, some 1⟩] []
    ⟨[⟨some 0, some 2, none, false⟩, ⟨some 0, some 2, none, false⟩],
      [true]⟩ (initState Sense.minimize) _ _
    (fun s => ⟨rfl, fun _ => rfl, rfl⟩)
    (fun s => ⟨rfl, fun _ => rfl, rfl⟩)
    (by
      intro d hd hrf v hv
      obtain rfl := List.mem_singleton.mp hd
      simp only [List.get?] at hv
      rw [← Option.some.inj hv])
    h
  exact ⟨h, hm.1 0, hm.2 0 rfl⟩
